import Mathlib

/-!
# Verification of the `multicorecsv` parallel CSV codec

This file gives a shallow embedding of the `multicorecsv` Go library
(`multicorecsv.go` — the `Reader` pipeline — and `writer.go` — the `Writer`
pipeline) and proves or refutes the frozen claims about it.

Conventions of the embedding:
* byte streams are `List Char`; a Go `[]string` record is a `List String`;
* the concurrent pipeline is modelled by making the nondeterministic part —
  the order in which parsed batches arrive on the `lineout` channel — an
  explicit parameter (an arbitrary permutation of the batches the workers
  produce), and the caller-side reordering loop (`Reader.Read`) a pure
  state-transition function;
* the external `encoding/csv` single-record parser and encoder are not part
  of this repository's sources; they are modelled from the specification's
  §6 contract (see the doc comments of `parseFields` and `encodeField`).
-/

set_option maxHeartbeats 1000000

namespace Multicorecsv

/-- Terminal statuses of the pipeline: end-of-stream (`io.EOF`), a
`csv.ParseError` (carrying its user-visible `Line` attribute), or an i/o
error from the byte source or sink (identified by an opaque code). -/
inductive Err where
  | eof
  | parseError (line : Nat)
  | ioErr (code : Nat)
deriving DecidableEq, Repr

/-- A raw line in the Reader pipeline: the `csvLine` struct of
`multicorecsv.go` (payload bytes plus the line number assigned by the
splitter). -/
structure CsvLine where
  data : List Char
  num : Nat
deriving DecidableEq, Repr

/-- A parsed line in the Reader pipeline: the `sliceLine` struct of
`multicorecsv.go` (field slice plus line number); `data = []` is the `nil`
payload of a skip line. -/
structure SliceLine where
  data : List String
  num : Nat
deriving DecidableEq, Repr

/-! ## Splitter (`Reader.startReading`) -/

/-- `bufio.Reader.ReadBytes('\n')` iterated over the whole stream: splits
into lines, each line keeping its trailing `'\n'`; a final fragment without
a newline is kept only when non-empty (at EOF `ReadBytes` returns the
remaining bytes, and `startReading` appends only non-empty lines). -/
def splitLinesAux : List Char → List Char → List (List Char)
  | acc, [] => if acc.isEmpty then [] else [acc.reverse]
  | acc, c :: rest =>
    if c = '\n' then (acc.reverse ++ ['\n']) :: splitLinesAux [] rest
    else splitLinesAux (c :: acc) rest

/-- All physical lines of the input stream, in order. -/
def splitLines (s : List Char) : List (List Char) :=
  splitLinesAux [] s

/-- The lines that `startReading` keeps: a line whose first byte is `'\r'`
is dropped (`continue`) without consuming a line number. -/
def keptLines (s : List Char) : List (List Char) :=
  (splitLines s).filter (fun l => !(l.head? == some '\r'))

/-- The kept lines tagged with their dense zero-based line numbers
(`linenum++` in `startReading`). -/
def numberedLines (s : List Char) : List CsvLine :=
  (keptLines s).enum.map (fun p => ⟨p.2, p.1⟩)

/-- The batching loop of `startReading`: lines are collected into batches
of exactly `ChunkSize` and sent; at EOF the remaining (possibly empty)
batch is sent.  In particular when the number of lines is a positive
multiple of `ChunkSize`, a trailing empty batch is emitted. -/
def splitterBatchesF {α : Type} (c : Nat) : Nat → List α → List (List α)
  | 0, ls => [ls]
  | fuel + 1, ls =>
    if c = 0 then [ls]
    else if ls.length < c then [ls]
    else ls.take c :: splitterBatchesF c fuel (ls.drop c)

/-- The splitter's batches with the natural fuel (one unit per batch is
ample since every full batch removes `c ≥ 1` lines). -/
def splitterBatches (c : Nat) (ls : List CsvLine) : List (List CsvLine) :=
  splitterBatchesF c ls.length ls

/-! ## The sequential single-record CSV grammar

Modelled from the spec: the `encoding/csv` single-record parser is not part
of this repository's sources; §6 of the specification fixes its contract —
fields separated by the delimiter, quoted fields with doubled inner quotes,
a grammar violation (such as a bare quote in a non-quoted field or an
unterminated quoted field) failing with a parse error.  The model covers the
default configuration used by the claims (`LazyQuotes = false`,
`TrimLeadingSpace = false`). -/

/-- Parse the remainder of a quoted field (the opening quote already
consumed).  Returns the field contents and, when the field was followed by
a delimiter, the remaining input. -/
def parseQuoted (comma : Char) (acc : List Char) : List Char → Except Unit (List Char × Option (List Char))
  | [] => .error ()
  | [c] => if c = '"' then .ok (acc.reverse, none) else .error ()
  | c :: d :: rest =>
    if c = '"' then
      if d = '"' then parseQuoted comma ('"' :: acc) rest
      else if d = comma then .ok (acc.reverse, some rest)
      else .error ()
    else parseQuoted comma (c :: acc) (d :: rest)

/-- Parse a non-quoted field; a bare quote inside it is a grammar
violation. -/
def parseBare (comma : Char) (acc : List Char) : List Char → Except Unit (List Char × Option (List Char))
  | [] => .ok (acc.reverse, none)
  | c :: rest =>
    if c = comma then .ok (acc.reverse, some rest)
    else if c = '"' then .error ()
    else parseBare comma (c :: acc) rest

/-- One record: a sequence of fields separated by the delimiter.  Fuel is
an upper bound on the number of fields; `parseFields` supplies enough. -/
def parseFieldsAux (comma : Char) : Nat → List Char → Except Unit (List String)
  | 0, _ => .error ()
  | fuel + 1, input =>
    let step :=
      if input.head? = some '"' then parseQuoted comma [] input.tail
      else parseBare comma [] input
    match step with
    | .error () => .error ()
    | .ok (f, none) => .ok [String.mk f]
    | .ok (f, some rest) =>
      match parseFieldsAux comma fuel rest with
      | .error () => .error ()
      | .ok fs => .ok (String.mk f :: fs)

/-- Modelled from the spec: the single-record parse of the sequential CSV
library (§6), at the default configuration. -/
def parseFields (comma : Char) (input : List Char) : Except Unit (List String) :=
  parseFieldsAux comma (input.length + 1) input

/-- Strip one trailing `'\n'` and then one trailing `'\r'`: the line
terminator normalization `encoding/csv` applies to each line. -/
def stripLineEnd (l : List Char) : List Char :=
  let l1 := if l.getLast? = some '\n' then l.dropLast else l
  if l1.getLast? = some '\r' then l1.dropLast else l1

/-! ## Parser worker (`Reader.parseCSVLines`) -/

/-- Processing of one raw line by a parser worker: an empty payload is a
(`ReadRune`) failure, a line whose first character is `'\n'` or the
configured comment character becomes a skip line with `nil` payload, and
any other line is handed to the sequential parser; a parse failure
surfaces a `csv.ParseError` whose `Line` attribute is rewritten to the raw
line's number + 1 (`pe.Line = b.num + 1`). -/
def parseOne (comma comment : Char) (l : CsvLine) : Except Err SliceLine :=
  match l.data.head? with
  | none => .error (Err.ioErr 0)
  | some c =>
    if c = '\n' ∨ c = comment then .ok ⟨[], l.num⟩
    else
      match parseFields comma (stripLineEnd l.data) with
      | .error _ => .error (Err.parseError (l.num + 1))
      | .ok fs => .ok ⟨fs, l.num⟩

/-- A worker's processing of one raw batch: lines are parsed in order and
the first failure aborts the batch. -/
def parseBatch (comma comment : Char) (b : List CsvLine) : Except Err (List SliceLine) :=
  b.mapM (parseOne comma comment)

/-- The parsed batches of the pipeline on an input all of whose lines
parse; on such inputs this equals mapping `parseBatch` over the splitter's
batches. -/
def goodParsedBatches (comma comment : Char) (c : Nat) (input : List Char) : List (List SliceLine) :=
  (splitterBatches c (numberedLines input)).map
    (fun b => (parseBatch comma comment b).toOption.getD [])

/-- The per-batch worker outcomes of the pipeline (`none` for a batch that
parses, the rewritten error otherwise). -/
def batchResultsOf (comma comment : Char) (c : Nat) (input : List Char) : List (Option Err) :=
  (splitterBatches c (numberedLines input)).map
    (fun b => match parseBatch comma comment b with
      | .ok _ => none
      | .error e => some e)

/-- Every error any worker can surface on this input (each erroring batch
contributes the error of its first failing line). -/
def pipelineErrors (comma comment : Char) (c : Nat) (input : List Char) : List Err :=
  (batchResultsOf comma comment c input).filterMap id

/-- `Reader.waitForDone`: takes the splitter's terminal status, then the
worker statuses in their (nondeterministic) completion order; the first
non-nil, non-EOF one becomes the terminal error, defaulting to `io.EOF`. -/
def waitForDoneModel (e1 : Option Err) (ws : List (Option Err)) : Err :=
  (ws.foldl
    (fun acc w =>
      match acc, w with
      | none, some e => if e = Err.eof then none else some e
      | acc, _ => acc)
    e1).getD Err.eof

/-- The trusted sequential reference: split, filter and number the lines
exactly as the splitter does, then run the single-record parser over each
line in input order, keeping the records of the non-skip lines. -/
def seqRecords (comma comment : Char) (input : List Char) : List (List String) :=
  (numberedLines input).filterMap
    (fun l => match parseOne comma comment l with
      | .ok sl => if sl.data.isEmpty then none else some sl.data
      | .error _ => none)

/-! ## Reorderer (`Reader.Read`)

The Go `map[int][]string` is embedded as an association list with the
usual map operations; `Read` becomes a pure transition on an explicit
state whose `pending` component is the sequence of batches still to be
received from the `lineout` channel, in their (arbitrary) arrival order,
and whose `chanErr` component is the value `waitForDone` will place on the
error channel. -/

/-- Go map lookup `queue[k]`. -/
def lookupKey {α : Type} (k : Nat) : List (Nat × α) → Option α
  | [] => none
  | p :: rest => if p.1 = k then some p.2 else lookupKey k rest

/-- Go map `delete(queue, k)`. -/
def removeKey {α : Type} (k : Nat) : List (Nat × α) → List (Nat × α)
  | [] => []
  | p :: rest => if p.1 = k then rest else p :: removeKey k rest

/-- Go map assignment `queue[k] = v`. -/
def insertKey {α : Type} (k : Nat) (v : α) (q : List (Nat × α)) : List (Nat × α) :=
  (k, v) :: removeKey k q

/-- The caller-visible state of `Reader.Read`. -/
structure RState where
  place : Nat
  queue : List (Nat × List String)
  pending : List (List SliceLine)
  final : Option Err
  chanErr : Err
deriving DecidableEq, Repr

/-- The leading loop of `Read`: pop `queue[place]` while present,
incrementing `place`; a non-empty popped value is returned, empty values
(skip lines) are consumed silently.  The fuel is the queue length, which
the loop can never exceed since every iteration deletes one present key. -/
def drainQueueF : Nat → Nat → List (Nat × List String) → Option (List String) × Nat × List (Nat × List String)
  | 0, place, q => (none, place, q)
  | fuel + 1, place, q =>
    match lookupKey place q with
    | none => (none, place, q)
    | some v =>
      let q' := removeKey place q
      if v.isEmpty then drainQueueF fuel (place + 1) q'
      else (some v, place + 1, q')

/-- The `Read` loop over `queue` with its natural fuel. -/
def drainQueue (place : Nat) (q : List (Nat × List String)) : Option (List String) × Nat × List (Nat × List String) :=
  drainQueueF q.length place q

/-- The inner loop of `Read` over one received batch: the entry whose
number is `place` becomes the result, every other entry is stored in the
queue. -/
def scanBatch (place : Nat) : List SliceLine → Option (List String) → List (Nat × List String) → Option (List String) × List (Nat × List String)
  | [], found, q => (found, q)
  | l :: rest, found, q =>
    if l.num = place then scanBatch place rest (some l.data) q
    else scanBatch place rest found (insertKey l.num l.data q)

/-- The channel loop of `Read`: receive batches until one of them holds the
entry numbered `place`; `none` means the channel was exhausted (closed). -/
def pullBatches (place : Nat) : List (List SliceLine) → List (Nat × List String) → Option (List String × List (List SliceLine)) × List (Nat × List String)
  | [], q => (none, q)
  | b :: rest, q =>
    match scanBatch place b none q with
    | (some v, q') => (some (v, rest), q')
    | (none, q') => pullBatches place rest q'

/-- One call of `Reader.Read`: returns the record/`error` pair of the Go
call (a `nil` record is `[]`) together with the successor state. -/
def readStep (st : RState) : (List String × Option Err) × RState :=
  match st.final with
  | some e => (([], some e), st)
  | none =>
    match drainQueue st.place st.queue with
    | (some v, p', q') => ((v, none), { st with place := p', queue := q' })
    | (none, p', q') =>
      match pullBatches p' st.pending q' with
      | (some (v, rest), q2) =>
        ((v, none), { st with place := p' + 1, queue := q2, pending := rest })
      | (none, q2) =>
        (([], some st.chanErr),
         { st with place := p', queue := q2, pending := [], final := some st.chanErr })

/-- The state after `k` calls of `Read`. -/
def readN : Nat → RState → RState
  | 0, st => st
  | k + 1, st => readN k (readStep st).2

/-- `Reader.ReadAll` via `Stream`: call `Read` in a loop, collect the
non-empty records, stop silently on `io.EOF` and with the error on any
other terminal status. -/
def readAllAux : Nat → RState → List (List String) × Option Err
  | 0, _ => ([], none)
  | fuel + 1, st =>
    match readStep st with
    | ((v, some e), _) =>
      if e = Err.eof then ([], none) else ([], some e)
    | ((v, none), st') =>
      let (rest, e') := readAllAux fuel st'
      (if v.isEmpty then rest else v :: rest, e')

/-- The initial state of a run whose parsed batches arrive in the order
`arrival` and whose error channel will carry `io.EOF`. -/
def initState (arrival : List (List SliceLine)) : RState :=
  ⟨0, [], arrival, none, Err.eof⟩

/-- `Reader.ReadAll` on a run with arrival order `arrival`; the fuel bounds
the number of `Read` calls, which cannot exceed one per pipeline line plus
the final end-of-stream call. -/
def mcReadAll (arrival : List (List SliceLine)) : List (List String) × Option Err :=
  readAllAux (arrival.flatten.length + 1) (initState arrival)

/-! ## Writer — Accumulator (`Writer.Write`, `Writer.write`, `Writer.Flush`)

`writer.go` keeps `queueIn` (the pending records) and `place` (the next
batch number); `write` emits `(place, queueIn)` on `linein` when the queue
is already full on entry or when called with the empty record (the flush
signal), and a flush additionally emits a zero-record fence batch. -/

/-- The caller-side accumulator state of the Writer. -/
structure AccState where
  queueIn : List (List String)
  place : Nat
deriving DecidableEq, Repr

/-- `Writer.write`: returns the successor state and the batches emitted on
the `linein` channel during the call, in emission order. -/
def writeGo (c : Nat) (st : AccState) (record : List String) : AccState × List (Nat × List (List String)) :=
  let (st1, out1) :=
    if st.queueIn.length = c ∨ record.length = 0 then
      (AccState.mk [] (st.place + 1), [(st.place, st.queueIn)])
    else (st, ([] : List (Nat × List (List String))))
  if record.length = 0 then
    (AccState.mk st1.queueIn (st1.place + 1), out1 ++ [(st1.place, [])])
  else (AccState.mk (st1.queueIn ++ [record]) st1.place, out1)

/-- `Writer.Write`: the public wrapper — an empty record is silently
ignored, everything returns a `nil` status. -/
def writeOp (c : Nat) (st : AccState) (record : List String) : Option Err × AccState × List (Nat × List (List String)) :=
  if record.length = 0 then (none, st, [])
  else (none, writeGo c st record)

/-- `Writer.Flush` as seen by the accumulator: `write(nil)`. -/
def flushOp (c : Nat) (st : AccState) : AccState × List (Nat × List (List String)) :=
  writeGo c st []

/-- `Writer.WriteAll`: `Write` each record, then `Flush`; the emitted
batches of the whole call in order. -/
def writeAllOp (c : Nat) (records : List (List String)) : AccState × List (Nat × List (List String)) :=
  let (st, out) := records.foldl
    (fun acc r =>
      let (_, st', out') := writeOp c acc.1 r
      (st', acc.2 ++ out'))
    (AccState.mk [] 0, [])
  let (st', out') := flushOp c st
  (st', out ++ out')

/-! ## Writer — Encoder workers (`Writer.startEncoding`)

Modelled from the spec: the `encoding/csv` single-record encoder is not
part of this repository's sources; §6 fixes its contract — one record per
line, fields quoted when they contain the delimiter, a double quote, a
newline *(or, only in CRLF mode, a carriage return)*, inner quotes
doubled.  The model covers the default `UseCRLF = false` mode. -/

/-- Double every quote of a field body. -/
def escapeQuotes : List Char → List Char
  | [] => []
  | c :: rest => if c = '"' then '"' :: '"' :: escapeQuotes rest else c :: escapeQuotes rest

/-- Does the sequential encoder quote this field (default, non-CRLF
mode)? -/
def needsQuote (comma : Char) (f : List Char) : Bool :=
  f.any (fun c => c = comma || c = '"' || c = '\n')

/-- Modelled from the spec: encode one field. -/
def encodeField (comma : Char) (f : String) : List Char :=
  if needsQuote comma f.data then '"' :: (escapeQuotes f.data ++ ['"']) else f.data

/-- The body of an encoded record: the encoded fields joined by the
delimiter. -/
def encodeFields (comma : Char) : List String → List Char
  | [] => []
  | [f] => encodeField comma f
  | f :: rest => encodeField comma f ++ comma :: encodeFields comma rest

/-- Modelled from the spec: encode one record followed by `'\n'`. -/
def encodeRecord (comma : Char) (r : List String) : List Char :=
  encodeFields comma r ++ ['\n']

/-- A field whose round trip the amended C2 covers: no newline (the
Reader splits on raw newlines), no carriage return (the spec's encoder
quotes `'\r'` only in CRLF mode, while the splitter drops `'\r'`-headed
lines), and no NUL byte (the Reader's zero-valued default `Comment` rune
turns a NUL-headed line into a skip line). -/
def fieldClean (f : String) : Prop :=
  '\n' ∉ f.data ∧ '\r' ∉ f.data ∧ (Char.ofNat 0) ∉ f.data

/-- A record whose round trip the amended C2 covers: non-empty, not the
single empty field (which encodes to a bare `"\n"` that the Reader skips),
with clean fields. -/
def recordClean (r : List String) : Prop :=
  r ≠ [] ∧ r ≠ [""] ∧ ∀ f ∈ r, fieldClean f

/-- A worker's `csv.Writer.WriteAll` into its scratch buffer. -/
def encodeBatch (comma : Char) (rs : List (List String)) : List Char :=
  (rs.map (encodeRecord comma)).flatten

/-- `startEncoding` on one input batch: a zero-record batch becomes a
`nil`-buffer fence chunk, any other batch is encoded. -/
def encodeChunk (comma : Char) (b : Nat × List (List String)) : Nat × Option (List Char) :=
  (b.1, if b.2.isEmpty then none else some (encodeBatch comma b.2))

/-! ## Writer — Serializer (`Writer.startWriting`)

The serializer receives encoded chunks in an arbitrary arrival order,
applies the one numbered `currentPlace` immediately, stashes others in
`queueOut`, and drains `queueOut` after every application; applying a
`nil` buffer flushes instead of writing.  The list it returns is the
sequence of applied buffers in application order. -/

/-- The `Top` drain loop of `startWriting`, fuelled by the stash size. -/
def serDrainF : Nat → Nat → List (Nat × Option (List Char)) → List (Option (List Char)) × Nat × List (Nat × Option (List Char))
  | 0, cur, q => ([], cur, q)
  | fuel + 1, cur, q =>
    match lookupKey cur q with
    | none => ([], cur, q)
    | some b =>
      let (out, cur', q') := serDrainF fuel (cur + 1) (removeKey cur q)
      (b :: out, cur', q')

/-- The receive loop of `startWriting`. -/
def serRun (cur : Nat) (q : List (Nat × Option (List Char))) : List (Nat × Option (List Char)) → List (Option (List Char))
  | [] => []
  | chunk :: rest =>
    if chunk.1 = cur then
      let (out, cur', q') := serDrainF q.length (cur + 1) q
      chunk.2 :: (out ++ serRun cur' q' rest)
    else serRun cur (insertKey chunk.1 chunk.2 q) rest

/-- The bytes the serializer hands to the buffered sink, in order: the
non-fence buffers it applied, concatenated. -/
def serializedBytes (arrival : List (Nat × Option (List Char))) : List Char :=
  ((serRun 0 [] arrival).filterMap id).flatten

/-- The byte stream produced by `WriteAll records` when the encoded chunks
reach the serializer in order `arrival`. -/
def writerBytes (comma : Char) (c : Nat) (records : List (List String)) (arrival : List (Nat × Option (List Char))) : List Char :=
  serializedBytes arrival

/-- The full encode/decode round trip at default configuration and
in-order chunk/batch delivery: `ReadAll(Write(records))`. -/
def roundTrip (cw cr : Nat) (records : List (List String)) : List (List String) × Option Err :=
  let bytes := serializedBytes (((writeAllOp cw records).2).map (encodeChunk ','))
  mcReadAll (goodParsedBatches ',' (Char.ofNat 0) cr bytes)

/-! ## Writer.Error, Reader.Close, Writer.Close -/

/-- `Writer.Error` as written: it performs a fresh zero-length write on the
sink (`mcw.w.Write(nil)`) and returns that probe's status; the latched
`finalError` is not consulted. -/
def writerErrorOp (latched : Option Err) (probeWriteResult : Option Err) : Option Err :=
  probeWriteResult

/-- The observable close-effects of a `Reader`: whether the `closeOnce`
body already ran, how many times the cancellation channel was closed, and
how many times the underlying source's `Close` was called. -/
structure RCloseState where
  onceDone : Bool
  cancelCount : Nat
  srcCloseCount : Nat
deriving DecidableEq, Repr

/-- `Reader.Close`: the `closeOnce` body closes `cancel` and, when the
source is an `io.Closer`, closes it into the local `insideError`; a
repeated call skips the body and returns the zero-valued `insideError`. -/
def readerCloseOp (closable : Bool) (srcCloseErr : Option Err) (st : RCloseState) : Option Err × RCloseState :=
  if st.onceDone then (none, st)
  else ((if closable then srcCloseErr else none),
        ⟨true, st.cancelCount + 1, st.srcCloseCount + (if closable then 1 else 0)⟩)

/-- State after `k` calls of `Reader.Close`. -/
def readerCloseN (closable : Bool) (srcCloseErr : Option Err) : Nat → RCloseState → RCloseState
  | 0, st => st
  | k + 1, st => readerCloseN closable srcCloseErr k (readerCloseOp closable srcCloseErr st).2

/-- The observable close-effects of a `Writer`: the `closeOnce` flag, the
latched `finalError`, and how many times `Flush`, `close(linein)` and the
sink's `Close` ran. -/
structure WCloseState where
  onceDone : Bool
  finalError : Option Err
  flushCount : Nat
  sinkCloseCount : Nat
deriving DecidableEq, Repr

/-- `Writer.Close`: the `closeOnce` body flushes, closes `linein`, and,
when the sink is an `io.Closer`, stores its close status into
`finalError`; every call returns the current `finalError`. -/
def writerCloseOp (closable : Bool) (sinkCloseErr : Option Err) (st : WCloseState) : Option Err × WCloseState :=
  if st.onceDone then (st.finalError, st)
  else
    let fin := if closable then sinkCloseErr else st.finalError
    (fin, ⟨true, fin, st.flushCount + 1, st.sinkCloseCount + (if closable then 1 else 0)⟩)

/-- State after `k` calls of `Writer.Close`. -/
def writerCloseN (closable : Bool) (sinkCloseErr : Option Err) : Nat → WCloseState → WCloseState
  | 0, st => st
  | k + 1, st => writerCloseN closable sinkCloseErr k (writerCloseOp closable sinkCloseErr st).2

/-! ## Auxiliary definitions used by the proofs -/

instance exceptDecidableEq {ε α : Type} [DecidableEq ε] [DecidableEq α] :
    DecidableEq (Except ε α) := fun a b =>
  match a, b with
  | .ok x, .ok y => if h : x = y then isTrue (by rw [h]) else isFalse (by simp [h])
  | .error x, .error y => if h : x = y then isTrue (by rw [h]) else isFalse (by simp [h])
  | .ok _, .error _ => isFalse (by simp)
  | .error _, .ok _ => isFalse (by simp)

/-- The parsed line with number `k` (in a list whose numbers are dense this
is the `k`-th element). -/
def lineAt (pl : List SliceLine) (k : Nat) : SliceLine :=
  pl.getD k ⟨[], 0⟩

/-- The reordering invariant of a good run (all lines parse, the error
channel carries `io.EOF`): the numbers held by the pending map and the
batches still in flight are exactly the interval from the cursor to the
end of the input, and every held entry is a genuine parsed line of `pl`. -/
def InvR (pl : List SliceLine) (st : RState) : Prop :=
  st.final = none ∧ st.chanErr = Err.eof ∧ st.place ≤ pl.length ∧
  (st.queue.map Prod.fst ++ st.pending.flatten.map SliceLine.num).Perm
    (List.range' st.place (pl.length - st.place)) ∧
  (∀ x ∈ st.queue, (⟨x.2, x.1⟩ : SliceLine) ∈ pl) ∧
  (∀ l ∈ st.pending.flatten, l ∈ pl)

/-- The skip-line view used by `ReadAll`. -/
def recView (l : SliceLine) : Option (List String) :=
  if l.data.isEmpty then none else some l.data

/-! ## Simple claims: terminal latch, Error probe, Write buffering, Close -/

/-- A `Read` call on a state with a latched terminal status returns the
`nil` record and that status, and leaves the state unchanged. -/
theorem readStep_of_final (st : RState) (e : Err) (h : st.final = some e) :
    readStep st = (([], some e), st) := by
  unfold readStep
  rw [h]

/-- A `Read` call that returns a terminal status latches it. -/
theorem final_of_readStep (st : RState) (e : Err) (h : (readStep st).1.2 = some e) :
    (readStep st).1.1 = [] ∧ (readStep st).2.final = some e := by
  unfold readStep at h ⊢
  split at h
  case h_1 e' heq => simp_all
  case h_2 heq =>
    split at h
    case h_1 v p' q' hdq => simp_all
    case h_2 p' q' hdq =>
      split at h
      case h_1 v rest q2 hp => simp_all
      case h_2 q2 hp => simp_all

/-- A state with a latched terminal status is a fixed point of `Read`. -/
theorem readN_of_final (st : RState) (e : Err) (h : st.final = some e) :
    ∀ k, readN k st = st := by
  intro k
  induction k with
  | zero => rfl
  | succ k ih =>
    show readN k (readStep st).2 = st
    rw [readStep_of_final st e h]
    exact ih

/-- C3: once `Read` has returned a terminal status (end-of-stream or an
error), it returned the `nil` record with it, and every subsequent `Read`
call returns the `nil` record and that same status, delivering no further
records. -/
theorem c3_terminal_latch (st : RState) (e : Err)
    (h : (readStep st).1.2 = some e) :
    (readStep st).1.1 = [] ∧
    ∀ k, readN k (readStep st).2 = (readStep st).2 ∧
      readStep (readN k (readStep st).2) = (([], some e), readN k (readStep st).2) := by
  obtain ⟨h1, h2⟩ := final_of_readStep st e h
  refine ⟨h1, fun k => ?_⟩
  have hfix := readN_of_final (readStep st).2 e h2 k
  rw [hfix]
  exact ⟨rfl, readStep_of_final _ e h2⟩

/-- Witness for C3: the empty pipeline latches `io.EOF` on its first
`Read`, and the next `Read` repeats it on an unchanged state. -/
theorem c3_witness :
    (readStep (initState [])).1.1 = [] ∧
    readN 1 (readStep (initState [])).2 = (readStep (initState [])).2 ∧
    readStep (readN 1 (readStep (initState [])).2) =
      (([], some Err.eof), readN 1 (readStep (initState [])).2) := by
  have h := c3_terminal_latch (initState []) Err.eof (by rfl)
  exact ⟨h.1, h.2 1⟩

/-- C5: `Writer.Error` returns the status of a fresh zero-length probe
write on the sink and ignores the latched `finalError`: a latched error
with a succeeding probe yields `nil`, and a failing probe yields its error
even when nothing is latched.  (The claim says it returns the latched
terminal error without performing a fresh write; the code contradicts its
own doc comment, which the specification's design notes acknowledge as a
defect.) -/
theorem c5_error_probes_sink :
    (∀ latched probe : Option Err, writerErrorOp latched probe = probe) ∧
    writerErrorOp (some (Err.ioErr 3)) none = none ∧
    writerErrorOp none (some (Err.ioErr 4)) = some (Err.ioErr 4) :=
  ⟨fun _ _ => rfl, rfl, rfl⟩

/-- Counterexample to C6: with `ChunkSize = 1`, writing one record to a
fresh Writer emits no batch during the call and leaves `queueIn` holding
exactly `ChunkSize` records when `Write` returns. -/
theorem c6_counterexample :
    (writeGo 1 (AccState.mk [] 0) ["a"]).2 = [] ∧
    (writeGo 1 (AccState.mk [] 0) ["a"]).1.queueIn.length = 1 :=
  ⟨rfl, rfl⟩

/-- C6 (amended): `write` of a non-empty record first checks whether
`queueIn` already holds `ChunkSize` records — if so it emits that batch
and resets — and then appends the record; consequently `queueIn` can hold
up to `ChunkSize` records when the call returns, and a full buffer is
emitted at the start of the next `write`/`Flush`, not during the call that
filled it. -/
theorem c6_write_buffering (c : Nat) (st : AccState) (r : List String)
    (hr : r ≠ []) (hc : 0 < c) (hlen : st.queueIn.length ≤ c) :
    writeGo c st r =
      (if st.queueIn.length = c then
        (AccState.mk [r] (st.place + 1), [(st.place, st.queueIn)])
      else (AccState.mk (st.queueIn ++ [r]) st.place, [])) ∧
    (writeGo c st r).1.queueIn.length ≤ c := by
  have hrlen : r.length ≠ 0 := by
    intro h
    exact hr (List.length_eq_zero.mp h)
  constructor
  · unfold writeGo
    by_cases hfull : st.queueIn.length = c
    · simp [hfull, hrlen]
    · simp [hfull, hrlen]
  · by_cases hfull : st.queueIn.length = c
    · unfold writeGo
      simp [hfull, hrlen]
      omega
    · unfold writeGo
      simp [hfull, hrlen]
      omega

/-- Witness for C6 (amended): a Writer with two pending records and
`ChunkSize = 2` emits them as batch 0 when the third record is written. -/
theorem c6_witness :
    writeGo 2 (AccState.mk [["a"], ["b"]] 0) ["c"] =
      (AccState.mk [["c"]] 1, [(0, [["a"], ["b"]])]) ∧
    (writeGo 2 (AccState.mk [["a"], ["b"]] 0) ["c"]).1.queueIn.length ≤ 2 := by
  have h := c6_write_buffering 2 (AccState.mk [["a"], ["b"]] 0) ["c"]
    (by decide) (by decide) (by decide)
  exact ⟨by rw [h.1]; rfl, h.2⟩

/-- Counterexample to C8: when the underlying source's `Close` fails, the
first `Reader.Close` returns that error but a repeated `Reader.Close`
returns `nil` — not the same status as the first call. -/
theorem c8_counterexample :
    (readerCloseOp true (some (Err.ioErr 7)) ⟨false, 0, 0⟩).1 = some (Err.ioErr 7) ∧
    (readerCloseOp true (some (Err.ioErr 7))
      (readerCloseOp true (some (Err.ioErr 7)) ⟨false, 0, 0⟩).2).1 = none :=
  ⟨rfl, rfl⟩

/-- A Reader close-state whose once-body already ran is a fixed point. -/
theorem readerCloseN_fixed (closable : Bool) (e : Option Err) (st : RCloseState)
    (h : st.onceDone = true) : ∀ k, readerCloseN closable e k st = st := by
  intro k
  induction k with
  | zero => rfl
  | succ k ih =>
    show readerCloseN closable e k (readerCloseOp closable e st).2 = st
    unfold readerCloseOp
    rw [h]
    exact ih

theorem writerCloseN_fixed (closable : Bool) (e : Option Err) (st : WCloseState)
    (h : st.onceDone = true) : ∀ k, writerCloseN closable e k st = st := by
  intro k
  induction k with
  | zero => rfl
  | succ k ih =>
    show writerCloseN closable e k (writerCloseOp closable e st).2 = st
    unfold writerCloseOp
    rw [h]
    exact ih

/-- C8 (amended): `Close` on both Reader and Writer is idempotent in its
effects — however many times `Close` is called, the Reader's cancellation
broadcast and source close, and the Writer's flush and sink close, each
run exactly once — and the Writer's repeated `Close` returns the same
status as the first; the Reader's repeated `Close`, however, returns
`nil` rather than the first call's status. -/
theorem c8_close_idempotent (closable : Bool) (srcErr sinkErr fe : Option Err)
    (w : WCloseState) (k : Nat) (hk : 1 ≤ k) :
    readerCloseN closable srcErr k ⟨false, 0, 0⟩ =
      (readerCloseOp closable srcErr ⟨false, 0, 0⟩).2 ∧
    (readerCloseN closable srcErr k ⟨false, 0, 0⟩).cancelCount = 1 ∧
    (readerCloseN closable srcErr k ⟨false, 0, 0⟩).srcCloseCount =
      (if closable then 1 else 0) ∧
    writerCloseN closable sinkErr k ⟨false, fe, 0, 0⟩ =
      (writerCloseOp closable sinkErr ⟨false, fe, 0, 0⟩).2 ∧
    (writerCloseN closable sinkErr k ⟨false, fe, 0, 0⟩).flushCount = 1 ∧
    (writerCloseN closable sinkErr k ⟨false, fe, 0, 0⟩).sinkCloseCount =
      (if closable then 1 else 0) ∧
    (readerCloseOp closable srcErr
      (readerCloseOp closable srcErr ⟨false, 0, 0⟩).2).1 = none ∧
    (writerCloseOp closable sinkErr (writerCloseOp closable sinkErr w).2).1 =
      (writerCloseOp closable sinkErr w).1 := by
  obtain ⟨k, rfl⟩ : ∃ j, k = j + 1 := ⟨k - 1, by omega⟩
  have hstep : readerCloseN closable srcErr (k + 1) ⟨false, 0, 0⟩ =
      readerCloseN closable srcErr k (readerCloseOp closable srcErr ⟨false, 0, 0⟩).2 := rfl
  have honce : (readerCloseOp closable srcErr ⟨false, 0, 0⟩).2.onceDone = true := by
    unfold readerCloseOp
    simp
  have hfix := readerCloseN_fixed closable srcErr _ honce k
  have hstep2 : writerCloseN closable sinkErr (k + 1) ⟨false, fe, 0, 0⟩ =
      writerCloseN closable sinkErr k (writerCloseOp closable sinkErr ⟨false, fe, 0, 0⟩).2 := rfl
  have honce2 : (writerCloseOp closable sinkErr ⟨false, fe, 0, 0⟩).2.onceDone = true := by
    unfold writerCloseOp
    simp
  have hfix2 := writerCloseN_fixed closable sinkErr _ honce2 k
  rw [hstep, hfix, hstep2, hfix2]
  refine ⟨rfl, ?_, ?_, rfl, ?_, ?_, ?_, ?_⟩
  · unfold readerCloseOp
    simp
  · unfold readerCloseOp
    simp
  · unfold writerCloseOp
    simp
  · unfold writerCloseOp
    simp
  · unfold readerCloseOp
    simp
  · unfold writerCloseOp
    by_cases h : w.onceDone <;> simp [h]

/-- Witness for C8 (amended): two closes of a Reader and of a Writer, both
over a closable underlying stream whose own close fails. -/
theorem c8_witness :
    readerCloseN true (some (Err.ioErr 7)) 2 ⟨false, 0, 0⟩ =
      (readerCloseOp true (some (Err.ioErr 7)) ⟨false, 0, 0⟩).2 ∧
    (readerCloseN true (some (Err.ioErr 7)) 2 ⟨false, 0, 0⟩).cancelCount = 1 ∧
    (readerCloseN true (some (Err.ioErr 7)) 2 ⟨false, 0, 0⟩).srcCloseCount =
      (if true then 1 else 0) ∧
    writerCloseN true (some (Err.ioErr 8)) 2 ⟨false, some (Err.ioErr 9), 0, 0⟩ =
      (writerCloseOp true (some (Err.ioErr 8)) ⟨false, some (Err.ioErr 9), 0, 0⟩).2 ∧
    (writerCloseN true (some (Err.ioErr 8)) 2
      ⟨false, some (Err.ioErr 9), 0, 0⟩).flushCount = 1 ∧
    (writerCloseN true (some (Err.ioErr 8)) 2
      ⟨false, some (Err.ioErr 9), 0, 0⟩).sinkCloseCount = (if true then 1 else 0) ∧
    (readerCloseOp true (some (Err.ioErr 7))
      (readerCloseOp true (some (Err.ioErr 7)) ⟨false, 0, 0⟩).2).1 = none ∧
    (writerCloseOp true (some (Err.ioErr 8))
      (writerCloseOp true (some (Err.ioErr 8)) ⟨false, some (Err.ioErr 9), 0, 0⟩).2).1 =
      (writerCloseOp true (some (Err.ioErr 8)) ⟨false, some (Err.ioErr 9), 0, 0⟩).1 :=
  c8_close_idempotent true (some (Err.ioErr 7)) (some (Err.ioErr 8)) (some (Err.ioErr 9))
    ⟨false, some (Err.ioErr 9), 0, 0⟩ 2 (by decide)

/-- C10: `Writer.Write` returns the `nil` status for every record — empty
records are silently ignored (no state change, no emission) and non-empty
records are buffered — so a sink failure is never observable through
`Write`'s return value.  (`write` never consults the latched `finalError`;
its only effects are on `queueIn`/`place` and the `linein` channel.) -/
theorem c10_write_returns_nil (c : Nat) (st : AccState) (r : List String) :
    (writeOp c st r).1 = none ∧ (writeOp c st []).2 = (st, []) := by
  constructor
  · unfold writeOp
    by_cases h : r.length = 0 <;> simp [h]
  · rfl

/-! ## Concrete counterexamples for C2, C4 and C9 -/

/-- Counterexample to C2: the record `[""]` (one empty field, no embedded
newline, default configuration) encodes to the bare line `"\n"`, which the
Reader treats as an empty skip line, so the round trip loses the record:
`ReadAll(Write([[""]]))` is `[]`, not `[[""]]`. -/
theorem c2_counterexample :
    roundTrip 50 50 [[""]] = ([], none) ∧
    ([[""]] : List (List String)) ≠ [] := by
  constructor
  · decide
  · simp

/-- Counterexample to C4: the input `"\r\na\"b\n"` has its first (and only)
grammar violation on physical 1-based line 2, but because the `"\r\n"` line
is dropped without consuming a line number, the surfaced parse error
reports line 1, not line 2.  Moreover on `"a\"\nok\nb\"\n"` with
`ChunkSize = 1` two distinct batches fail (reporting lines 1 and 3), and
`waitForDone` keeps whichever non-EOF worker status completes first — so
with an adverse completion order the terminal error reports line 3 even
though the first violation is on line 1. -/
theorem c4_counterexample :
    pipelineErrors ',' (Char.ofNat 0) 50 ("\r\na\"b\n".data) = [Err.parseError 1] ∧
    splitLines ("\r\na\"b\n".data) = ["\r\n".data, "a\"b\n".data] ∧
    (parseFields ',' (stripLineEnd ("\r\n".data))).toOption = some [""] ∧
    (parseFields ',' (stripLineEnd ("a\"b\n".data))).isOk = false ∧
    Err.parseError 1 ≠ Err.parseError 2 ∧
    pipelineErrors ',' (Char.ofNat 0) 1 ("a\"\nok\nb\"\n".data) =
      [Err.parseError 1, Err.parseError 3] ∧
    waitForDoneModel none [some (Err.parseError 3), none, some (Err.parseError 1)] =
      Err.parseError 3 := by
  refine ⟨by decide, by decide, by decide, by decide, by decide, by decide, by decide⟩

/-- Counterexample to C9: on input `"a\nb\n"` with `ChunkSize = 1`, if the
batch carrying line 1 arrives before the batch carrying line 0, then after
one `Read` call the pending map holds line number 1 while the
next-to-deliver cursor is also 1 — the stored line number is *not*
strictly greater than the cursor. -/
theorem c9_counterexample :
    goodParsedBatches ',' (Char.ofNat 0) 1 ("a\nb\n".data) =
      [[⟨["a"], 0⟩], [⟨["b"], 1⟩], []] ∧
    List.Perm [[(⟨["b"], 1⟩ : SliceLine)], [⟨["a"], 0⟩], []]
      (goodParsedBatches ',' (Char.ofNat 0) 1 ("a\nb\n".data)) ∧
    (readN 1 (initState [[⟨["b"], 1⟩], [⟨["a"], 0⟩], []])).queue = [(1, ["b"])] ∧
    (readN 1 (initState [[⟨["b"], 1⟩], [⟨["a"], 0⟩], []])).place = 1 ∧
    ¬ 1 < (1 : Nat) := by
  refine ⟨by decide, by decide, by decide, by decide, by decide⟩

/-! ## Association-list lemmas for the reorder maps -/

theorem lookupKey_eq_none {α : Type} {k : Nat} {q : List (Nat × α)} :
    lookupKey k q = none ↔ k ∉ q.map Prod.fst := by
  induction q with
  | nil => simp [lookupKey]
  | cons p rest ih =>
    by_cases h : p.1 = k
    · simp [lookupKey, h]
    · simp [lookupKey, h, ih, Ne.symm h]

theorem lookupKey_mem {α : Type} {k : Nat} {v : α} {q : List (Nat × α)}
    (h : lookupKey k q = some v) : (k, v) ∈ q := by
  induction q with
  | nil => simp [lookupKey] at h
  | cons p rest ih =>
    obtain ⟨a, b⟩ := p
    by_cases hp : a = k
    · subst hp
      simp only [lookupKey, if_pos] at h
      cases h
      exact List.mem_cons_self _ _
    · simp only [lookupKey, hp, if_neg, not_false_iff] at h
      exact List.mem_cons_of_mem _ (ih h)

theorem mem_fst_of_lookupKey {α : Type} {k : Nat} {v : α} {q : List (Nat × α)}
    (h : lookupKey k q = some v) : k ∈ q.map Prod.fst := by
  have := lookupKey_mem h
  exact List.mem_map_of_mem Prod.fst this

theorem removeKey_subset {α : Type} (k : Nat) (q : List (Nat × α)) :
    ∀ x ∈ removeKey k q, x ∈ q := by
  induction q with
  | nil => simp [removeKey]
  | cons p rest ih =>
    intro x hx
    by_cases h : p.1 = k
    · simp only [removeKey, h, if_pos] at hx
      exact List.mem_cons_of_mem p hx
    · simp only [removeKey, h, if_neg, not_false_iff] at hx
      rcases List.mem_cons.mp hx with hx1 | hx1
      · exact hx1 ▸ List.mem_cons_self p rest
      · exact List.mem_cons_of_mem p (ih x hx1)

theorem map_fst_removeKey {α : Type} (k : Nat) (q : List (Nat × α)) :
    (removeKey k q).map Prod.fst = (q.map Prod.fst).erase k := by
  induction q with
  | nil => simp [removeKey]
  | cons p rest ih =>
    by_cases h : p.1 = k
    · simp [removeKey, h, List.erase_cons_head]
    · have hbne : (p.1 == k) = false := by simp [h]
      simp [removeKey, h, List.erase_cons, hbne, ih]

theorem length_removeKey {α : Type} {k : Nat} {v : α} {q : List (Nat × α)}
    (h : lookupKey k q = some v) : (removeKey k q).length + 1 = q.length := by
  induction q with
  | nil => simp [lookupKey] at h
  | cons p rest ih =>
    by_cases hp : p.1 = k
    · simp [removeKey, hp]
    · simp only [lookupKey, hp, if_neg, not_false_iff] at h
      simp [removeKey, hp, ih h]

theorem removeKey_of_not_mem {α : Type} {k : Nat} {q : List (Nat × α)}
    (h : k ∉ q.map Prod.fst) : removeKey k q = q := by
  induction q with
  | nil => rfl
  | cons p rest ih =>
    simp only [List.map_cons, List.mem_cons, not_or] at h
    have hp : p.1 ≠ k := fun hh => h.1 hh.symm
    simp [removeKey, hp, ih h.2]

/-! ## The reordering invariant

Throughout a good run, the multiset of line numbers held by the pending
map together with the batches still to arrive is exactly the interval from
the cursor to the end, and every held entry is a genuine parsed line.  The
full parsed-line list `pl` is indexed by line number. -/


theorem mem_lineAt (pl : List SliceLine)
    (hnums : pl.map SliceLine.num = List.range pl.length)
    {x : SliceLine} (hx : x ∈ pl) : x.num < pl.length ∧ lineAt pl x.num = x := by
  obtain ⟨i, hi, rfl⟩ : ∃ (i : Nat) (h : i < pl.length), pl[i] = x := by
    simpa using List.mem_iff_getElem.mp hx
  have hnum : (pl[i]).num = i := by
    have hi2 : i < (pl.map SliceLine.num).length := by simpa using hi
    have h2 : (pl.map SliceLine.num)[i] = i := by
      simp [hnums]
    simpa using h2
  refine ⟨by rw [hnum]; exact hi, ?_⟩
  rw [hnum]
  unfold lineAt
  exact List.getD_eq_getElem pl _ hi

/-- Specification of the queue-drain loop of `Read`: starting from a state
whose held numbers (queue plus the rest `R` of the pipeline) form the
interval from `place` to the end, the loop consumes a (possibly empty) run
of skip lines from the queue and either returns the first non-empty record
or stops with the new cursor absent from the queue. -/
theorem drainQueueF_spec (pl : List SliceLine)
    (hnums : pl.map SliceLine.num = List.range pl.length) :
    ∀ (fuel : Nat) (q : List (Nat × List String)) (place : Nat) (R : List Nat),
      q.length ≤ fuel → place ≤ pl.length →
      (q.map Prod.fst ++ R).Perm (List.range' place (pl.length - place)) →
      (∀ x ∈ q, (⟨x.2, x.1⟩ : SliceLine) ∈ pl) →
      ∃ res p' q',
        drainQueueF fuel place q = (res, p', q') ∧
        place ≤ p' ∧ p' ≤ pl.length ∧
        (q'.map Prod.fst ++ R).Perm (List.range' p' (pl.length - p')) ∧
        (∀ x ∈ q', (⟨x.2, x.1⟩ : SliceLine) ∈ pl) ∧
        ((res = none ∧ lookupKey p' q' = none ∧
            (∀ k, place ≤ k → k < p' → (lineAt pl k).data = [])) ∨
         (∃ v, res = some v ∧ v ≠ [] ∧ place < p' ∧
            v = (lineAt pl (p' - 1)).data ∧
            (∀ k, place ≤ k → k < p' - 1 → (lineAt pl k).data = []))) := by
  intro fuel
  induction fuel with
  | zero =>
    intro q place R hlen hpl hperm hval
    have hq : q = [] := List.length_eq_zero.mp (Nat.le_zero.mp hlen)
    subst hq
    exact ⟨none, place, [], rfl, le_refl _, hpl, hperm, by simp,
      Or.inl ⟨rfl, rfl, fun k h1 h2 => by omega⟩⟩
  | succ fuel ih =>
    intro q place R hlen hpl hperm hval
    cases hlk : lookupKey place q with
    | none =>
      refine ⟨none, place, q, ?_, le_refl _, hpl, hperm, hval,
        Or.inl ⟨rfl, hlk, fun k h1 h2 => by omega⟩⟩
      simp [drainQueueF, hlk]
    | some v =>
      have hmemq : (place, v) ∈ q := lookupKey_mem hlk
      have hvpl : (⟨v, place⟩ : SliceLine) ∈ pl := hval _ hmemq
      have hplace := mem_lineAt pl hnums hvpl
      have hplt : place < pl.length := hplace.1
      have hdat : (lineAt pl place).data = v := by rw [hplace.2]
      have hkf : place ∈ q.map Prod.fst := mem_fst_of_lookupKey hlk
      have hlen' : (removeKey place q).length ≤ fuel := by
        have := length_removeKey hlk
        omega
      have hrange : List.range' place (pl.length - place) =
          place :: List.range' (place + 1) (pl.length - (place + 1)) := by
        have h1 : pl.length - place = (pl.length - (place + 1)) + 1 := by omega
        rw [h1, List.range'_succ]
      have hperm' : ((removeKey place q).map Prod.fst ++ R).Perm
          (List.range' (place + 1) (pl.length - (place + 1))) := by
        have h1 := hperm.erase place
        rw [hrange, List.erase_cons_head] at h1
        rw [List.erase_append_left R hkf] at h1
        rw [map_fst_removeKey]
        exact h1
      have hval' : ∀ x ∈ removeKey place q, (⟨x.2, x.1⟩ : SliceLine) ∈ pl :=
        fun x hx => hval x (removeKey_subset _ _ x hx)
      by_cases hv : v.isEmpty
      · have hvnil : v = [] := by simpa using hv
        obtain ⟨res, p', q', heq, hle, hple, hperm2, hval2, hcase⟩ :=
          ih (removeKey place q) (place + 1) R hlen' (by omega) hperm' hval'
        refine ⟨res, p', q', ?_, by omega, hple, hperm2, hval2, ?_⟩
        · simp [drainQueueF, hlk, hv, heq]
        · rcases hcase with ⟨h1, h2, h3⟩ | ⟨w, h1, h2, h3, h4, h5⟩
          · refine Or.inl ⟨h1, h2, fun k hk1 hk2 => ?_⟩
            by_cases hk : k = place
            · subst hk
              rw [hdat]
              exact hvnil
            · exact h3 k (by omega) hk2
          · refine Or.inr ⟨w, h1, h2, by omega, h4, fun k hk1 hk2 => ?_⟩
            by_cases hk : k = place
            · subst hk
              rw [hdat]
              exact hvnil
            · exact h5 k (by omega) hk2
      · refine ⟨some v, place + 1, removeKey place q, ?_, by omega, by omega,
          hperm', hval', Or.inr ⟨v, rfl, ?_, by omega, ?_, fun k hk1 hk2 => by omega⟩⟩
        · simp [drainQueueF, hlk, hv]
        · intro h
          rw [h] at hv
          simp at hv
        · rw [Nat.add_sub_cancel]
          exact hdat.symm

theorem find?_eq_none_of_not_mem_num {b : List SliceLine} {p : Nat}
    (h : p ∉ b.map SliceLine.num) : b.find? (fun l => l.num == p) = none := by
  apply List.find?_eq_none.mpr
  intro x hx hpx
  apply h
  have hxp : x.num = p := by simpa using hpx
  rw [← hxp]
  exact List.mem_map_of_mem _ hx

/-- Specification of the inner loop of `Read` over one received batch: the
result is the datum of the batch entry numbered `place` (if any, else the
accumulator), and the queue gains exactly the other entries. -/
theorem scanBatch_spec (place : Nat) :
    ∀ (b : List SliceLine) (acc : Option (List String)) (q : List (Nat × List String)),
      (q.map Prod.fst ++ b.map SliceLine.num).Nodup →
      ∃ q2, scanBatch place b acc q =
        ((match b.find? (fun l => l.num == place) with
          | some l => some l.data
          | none => acc), q2) ∧
        q2.Perm ((b.filter (fun l => !(l.num == place))).map (fun l => (l.num, l.data)) ++ q) := by
  intro b
  induction b with
  | nil =>
    intro acc q hnodup
    exact ⟨q, rfl, by simp⟩
  | cons l rest ih =>
    intro acc q hnodup
    by_cases hl : l.num = place
    · have hnodup' : (q.map Prod.fst ++ rest.map SliceLine.num).Nodup := by
        refine List.Nodup.sublist ?_ hnodup
        simp only [List.map_cons]
        exact List.Sublist.append_left (List.sublist_cons_self _ _) _
      obtain ⟨q2, heq, hperm⟩ := ih (some l.data) q hnodup'
      have hplacenotrest : place ∉ rest.map SliceLine.num := by
        have hr : (l.num :: rest.map SliceLine.num).Nodup := by
          have := List.Nodup.of_append_right hnodup
          simpa using this
        rw [← hl]
        exact (List.nodup_cons.mp hr).1
      have hrestfind : rest.find? (fun x => x.num == place) = none :=
        find?_eq_none_of_not_mem_num hplacenotrest
      have hfind : (l :: rest).find? (fun x => x.num == place) = some l := by
        have : (l.num == place) = true := by simp [hl]
        simp [List.find?_cons, this]
      refine ⟨q2, ?_, ?_⟩
      · have h0 : scanBatch place (l :: rest) acc q =
            scanBatch place rest (some l.data) q := by
          simp [scanBatch, hl]
        rw [h0, heq, hrestfind, hfind]
      · have hfil : (l :: rest).filter (fun x => !(x.num == place)) =
            rest.filter (fun x => !(x.num == place)) := by
          have : (l.num == place) = true := by simp [hl]
          simp [List.filter_cons, this]
        rw [hfil]
        exact hperm
    · have hlnotq : l.num ∉ q.map Prod.fst := by
        have hdisj := List.disjoint_of_nodup_append hnodup
        intro hmem
        exact hdisj hmem (by simp)
      have hins : insertKey l.num l.data q = (l.num, l.data) :: q := by
        unfold insertKey
        rw [removeKey_of_not_mem hlnotq]
      have hnodup' : (((l.num, l.data) :: q).map Prod.fst ++ rest.map SliceLine.num).Nodup := by
        have hpm : (l.num :: (q.map Prod.fst ++ rest.map SliceLine.num)).Perm
            (q.map Prod.fst ++ l.num :: rest.map SliceLine.num) := List.perm_middle.symm
        have h2 : (l.num :: (q.map Prod.fst ++ rest.map SliceLine.num)).Nodup := by
          refine (hpm.nodup_iff).mpr ?_
          simpa using hnodup
        simpa using h2
      obtain ⟨q2, heq, hperm⟩ := ih acc ((l.num, l.data) :: q) hnodup'
      have hbne : (l.num == place) = false := by simp [hl]
      refine ⟨q2, ?_, ?_⟩
      · have h0 : scanBatch place (l :: rest) acc q =
            scanBatch place rest acc (insertKey l.num l.data q) := by
          simp [scanBatch, hl]
        have hfind : (l :: rest).find? (fun x => x.num == place) =
            rest.find? (fun x => x.num == place) := by
          simp [List.find?_cons, hbne]
        rw [h0, hins, heq, hfind]
      · have hfil : (l :: rest).filter (fun x => !(x.num == place)) =
            l :: rest.filter (fun x => !(x.num == place)) := by
          simp [List.filter_cons, hbne]
        rw [hfil, List.map_cons]
        refine hperm.trans ?_
        exact List.perm_middle

theorem perm_rotate {α : Type} (A B C : List α) : ((A ++ B) ++ C).Perm (B ++ (A ++ C)) := by
  rw [List.append_assoc]
  refine (List.perm_append_comm).trans ?_
  rw [List.append_assoc]
  exact List.Perm.append_left B List.perm_append_comm

theorem filter_ne_map_num_perm_erase :
    ∀ {b : List SliceLine} {p : Nat},
      (b.map SliceLine.num).Nodup → p ∈ b.map SliceLine.num →
      ((b.filter (fun l => !(l.num == p))).map SliceLine.num).Perm
        ((b.map SliceLine.num).erase p) := by
  intro b
  induction b with
  | nil =>
    intro p _ hp
    simp at hp
  | cons l rest ih =>
    intro p hnodup hp
    simp only [List.map_cons] at hnodup hp
    by_cases hl : l.num = p
    · have hrest : p ∉ rest.map SliceLine.num := by
        rw [← hl]
        exact (List.nodup_cons.mp hnodup).1
      have hfilter : rest.filter (fun x => !(x.num == p)) = rest := by
        apply List.filter_eq_self.mpr
        intro a ha
        have hanum : a.num ≠ p := by
          intro hh
          exact hrest (hh ▸ List.mem_map_of_mem _ ha)
        simp [hanum]
      have hbt : (l.num == p) = true := by simp [hl]
      rw [List.filter_cons]
      simp only [hbt, Bool.not_true, if_neg, Bool.false_eq_true, not_false_iff]
      rw [hfilter, List.map_cons, hl, List.erase_cons_head]
    · have hbf : (l.num == p) = false := by simp [hl]
      have hprest : p ∈ rest.map SliceLine.num := by
        rcases List.mem_cons.mp hp with h | h
        · exact absurd h.symm hl
        · exact h
      have hnodup' : (rest.map SliceLine.num).Nodup := (List.nodup_cons.mp hnodup).2
      simp only [List.filter_cons, hbf, Bool.not_false, if_pos, List.map_cons]
      rw [List.erase_cons_tail]
      · exact List.Perm.cons _ (ih hnodup' hprest)
      · simp [hl]

theorem pullBatches_of_flatten_nil :
    ∀ (pending : List (List SliceLine)) (p : Nat) (q : List (Nat × List String)),
      pending.flatten = [] → pullBatches p pending q = (none, q) := by
  intro pending
  induction pending with
  | nil =>
    intro p q _
    rfl
  | cons b rest ih =>
    intro p q hflat
    rw [List.flatten_cons, List.append_eq_nil] at hflat
    obtain ⟨hb, hrest⟩ := hflat
    subst hb
    show pullBatches p ([] :: rest) q = (none, q)
    have hscan : scanBatch p [] none q = (none, q) := rfl
    simp [pullBatches, hscan, ih p q hrest]

/-- Specification of the channel loop of `Read`: when the wanted line
number `p` is still in flight (held by the remaining batches), the loop
finds it, returns its datum, and moves every entry it passed over into the
queue. -/
theorem pullBatches_spec (pl : List SliceLine)
    (hnums : pl.map SliceLine.num = List.range pl.length) :
    ∀ (pending : List (List SliceLine)) (q : List (Nat × List String)) (p : Nat),
      (q.map Prod.fst ++ pending.flatten.map SliceLine.num).Perm
        (List.range' p (pl.length - p)) →
      (∀ x ∈ q, (⟨x.2, x.1⟩ : SliceLine) ∈ pl) →
      (∀ l ∈ pending.flatten, l ∈ pl) →
      p ∉ q.map Prod.fst →
      p < pl.length →
      ∃ rest q2,
        pullBatches p pending q = (some ((lineAt pl p).data, rest), q2) ∧
        (q2.map Prod.fst ++ rest.flatten.map SliceLine.num).Perm
          (List.range' (p + 1) (pl.length - (p + 1))) ∧
        (∀ x ∈ q2, (⟨x.2, x.1⟩ : SliceLine) ∈ pl) ∧
        (∀ l ∈ rest.flatten, l ∈ pl) := by
  intro pending
  induction pending with
  | nil =>
    intro q p hperm hvq hvp hpq hplt
    exfalso
    have hpin : p ∈ List.range' p (pl.length - p) := by
      rw [List.mem_range'_1]
      omega
    have hmem := hperm.mem_iff.mpr hpin
    simp only [List.flatten_nil, List.map_nil, List.append_nil] at hmem
    exact hpq hmem
  | cons b rest' ih =>
    intro q p hperm hvq hvp hpq hplt
    have hformperm : (q.map Prod.fst ++
        (b.map SliceLine.num ++ rest'.flatten.map SliceLine.num)).Perm
        (List.range' p (pl.length - p)) := by
      simpa [List.flatten_cons, List.map_append] using hperm
    have hnodupall : (q.map Prod.fst ++
        (b.map SliceLine.num ++ rest'.flatten.map SliceLine.num)).Nodup :=
      hformperm.nodup_iff.mpr (List.nodup_range' p (pl.length - p))
    have hnodupqb : (q.map Prod.fst ++ b.map SliceLine.num).Nodup := by
      refine List.Nodup.sublist ?_ hnodupall
      exact List.Sublist.append_left (List.sublist_append_left _ _) _
    obtain ⟨q2, hscan, hq2perm⟩ := scanBatch_spec p b none q hnodupqb
    have hvb : ∀ l ∈ b, l ∈ pl := by
      intro l hl
      exact hvp l (by rw [List.flatten_cons]; exact List.mem_append_left _ hl)
    have hvrest : ∀ l ∈ rest'.flatten, l ∈ pl := by
      intro l hl
      exact hvp l (by rw [List.flatten_cons]; exact List.mem_append_right _ hl)
    have hq2fst : (q2.map Prod.fst).Perm
        ((b.filter (fun l => !(l.num == p))).map SliceLine.num ++ q.map Prod.fst) := by
      have h1 := hq2perm.map Prod.fst
      simpa [List.map_append, List.map_map, Function.comp] using h1
    have hvq2 : ∀ x ∈ q2, (⟨x.2, x.1⟩ : SliceLine) ∈ pl := by
      intro x hx
      have hx2 := hq2perm.mem_iff.mp hx
      rcases List.mem_append.mp hx2 with hx3 | hx3
      · obtain ⟨l, hl, rfl⟩ := List.mem_map.mp hx3
        exact hvb l (List.mem_of_mem_filter hl)
      · exact hvq x hx3
    cases hfind : b.find? (fun l => l.num == p) with
    | some l =>
      have hlp : l.num = p := by
        have h1 := List.find?_some hfind
        simpa using h1
      have hlb : l ∈ b := List.mem_of_find?_eq_some hfind
      have hlpl : l ∈ pl := hvb l hlb
      have hldat : (lineAt pl p).data = l.data := by
        rw [← hlp, (mem_lineAt pl hnums hlpl).2]
      have hres : pullBatches p (b :: rest') q = (some (l.data, rest'), q2) := by
        rw [hfind] at hscan
        simp [pullBatches, hscan]
      have hpb : p ∈ b.map SliceLine.num := by
        rw [← hlp]
        exact List.mem_map_of_mem _ hlb
      have hnodupb : (b.map SliceLine.num).Nodup := by
        have h1 := List.Nodup.of_append_right hnodupqb
        exact h1
      have hfil := filter_ne_map_num_perm_erase hnodupb hpb
      have hrange : List.range' p (pl.length - p) =
          p :: List.range' (p + 1) (pl.length - (p + 1)) := by
        have h1 : pl.length - p = (pl.length - (p + 1)) + 1 := by omega
        rw [h1, List.range'_succ]
      have hstar : (q.map Prod.fst ++
          ((b.map SliceLine.num).erase p ++ rest'.flatten.map SliceLine.num)).Perm
          (List.range' (p + 1) (pl.length - (p + 1))) := by
        have h1 := hformperm.erase p
        rw [hrange, List.erase_cons_head] at h1
        rw [List.erase_append_right _ hpq] at h1
        rw [List.erase_append_left _ hpb] at h1
        exact h1
      refine ⟨rest', q2, by rw [hres, hldat], ?_, hvq2, hvrest⟩
      have step1 : (q2.map Prod.fst ++ rest'.flatten.map SliceLine.num).Perm
          ((((b.filter (fun l => !(l.num == p))).map SliceLine.num) ++ q.map Prod.fst) ++
            rest'.flatten.map SliceLine.num) :=
        hq2fst.append_right _
      have step2 : ((((b.filter (fun l => !(l.num == p))).map SliceLine.num) ++ q.map Prod.fst) ++
          rest'.flatten.map SliceLine.num).Perm
          ((((b.map SliceLine.num).erase p) ++ q.map Prod.fst) ++
            rest'.flatten.map SliceLine.num) :=
        (hfil.append_right _).append_right _
      have step3 := perm_rotate ((b.map SliceLine.num).erase p) (q.map Prod.fst)
        (rest'.flatten.map SliceLine.num)
      exact step1.trans (step2.trans (step3.trans hstar))
    | none =>
      have hpnb : p ∉ b.map SliceLine.num := by
        intro hmem
        obtain ⟨l, hl, hlp⟩ := List.mem_map.mp hmem
        have h1 := List.find?_eq_none.mp hfind l hl
        simp [hlp] at h1
      have hres : pullBatches p (b :: rest') q = pullBatches p rest' q2 := by
        rw [hfind] at hscan
        simp [pullBatches, hscan]
      have hfilb : b.filter (fun l => !(l.num == p)) = b := by
        apply List.filter_eq_self.mpr
        intro a ha
        have hanum : a.num ≠ p := by
          intro hh
          exact hpnb (hh ▸ List.mem_map_of_mem _ ha)
        simp [hanum]
      rw [hfilb] at hq2fst
      have hpq2 : p ∉ q2.map Prod.fst := by
        intro hmem
        rcases List.mem_append.mp (hq2fst.mem_iff.mp hmem) with h | h
        · exact hpnb h
        · exact hpq h
      have hperm' : (q2.map Prod.fst ++ rest'.flatten.map SliceLine.num).Perm
          (List.range' p (pl.length - p)) := by
        have step1 : (q2.map Prod.fst ++ rest'.flatten.map SliceLine.num).Perm
            ((b.map SliceLine.num ++ q.map Prod.fst) ++ rest'.flatten.map SliceLine.num) :=
          hq2fst.append_right _
        have step2 := perm_rotate (b.map SliceLine.num) (q.map Prod.fst)
          (rest'.flatten.map SliceLine.num)
        exact step1.trans (step2.trans hformperm)
      obtain ⟨restf, q3, hr1, hr2, hr3, hr4⟩ := ih q2 p hperm' hvq2 hvrest hpq2 hplt
      exact ⟨restf, q3, by rw [hres, hr1], hr2, hr3, hr4⟩


/-- One `Read` call under the invariant either delivers the parsed line at
the new cursor minus one (having silently consumed a run of skip lines)
and preserves the invariant, or — when only skip lines remain — latches
end-of-stream. -/
theorem readStep_spec (pl : List SliceLine)
    (hnums : pl.map SliceLine.num = List.range pl.length)
    (st : RState) (hinv : InvR pl st) :
    (∃ p' st', readStep st = (((lineAt pl (p' - 1)).data, none), st') ∧
      st.place < p' ∧ p' ≤ pl.length ∧ st'.place = p' ∧ InvR pl st' ∧
      (∀ k, st.place ≤ k → k < p' - 1 → (lineAt pl k).data = [])) ∨
    ((∀ k, st.place ≤ k → k < pl.length → (lineAt pl k).data = []) ∧
      ∃ stf, readStep st = (([], some Err.eof), stf) ∧ stf.final = some Err.eof ∧
        stf.queue = []) := by
  obtain ⟨hfin, hchan, hple, hperm, hvq, hvp⟩ := hinv
  obtain ⟨res, p1, q1, hdrainF, hp1ge, hp1le, hperm1, hvq1, hcase⟩ :=
    drainQueueF_spec pl hnums st.queue.length st.queue st.place
      (st.pending.flatten.map SliceLine.num) (le_refl _) hple hperm hvq
  have hdrain : drainQueue st.place st.queue = (res, p1, q1) := hdrainF
  rcases hcase with ⟨hres, hlk1, hemp⟩ | ⟨v, hres, hvne, hp1gt, hvdat, hemp⟩
  · subst hres
    by_cases hp1n : p1 = pl.length
    · have hq1nil : q1.map Prod.fst = [] ∧ st.pending.flatten.map SliceLine.num = [] := by
        have h1 := hperm1
        rw [hp1n, Nat.sub_self, List.range'_zero] at h1
        exact List.append_eq_nil.mp h1.eq_nil
      have hq1 : q1 = [] := List.map_eq_nil_iff.mp hq1nil.1
      have hflat : st.pending.flatten = [] := List.map_eq_nil_iff.mp hq1nil.2
      have hpull : pullBatches p1 st.pending q1 = (none, q1) :=
        pullBatches_of_flatten_nil st.pending p1 q1 hflat
      refine Or.inr ⟨fun k h1 h2 => hemp k h1 (by omega), ?_⟩
      refine ⟨RState.mk p1 q1 [] (some Err.eof) st.chanErr, ?_, rfl, hq1⟩
      simp only [readStep, hfin, hdrain, hpull, hchan]
    · have hp1lt : p1 < pl.length := by omega
      have hp1notq1 : p1 ∉ q1.map Prod.fst := lookupKey_eq_none.mp hlk1
      obtain ⟨rest, q2, hpull, hperm2, hvq2, hvrest⟩ :=
        pullBatches_spec pl hnums st.pending q1 p1 hperm1 hvq1 hvp hp1notq1 hp1lt
      refine Or.inl ⟨p1 + 1,
        { st with place := p1 + 1, queue := q2, pending := rest }, ?_, by omega,
        by omega, rfl,
        ⟨hfin, hchan, by show p1 + 1 ≤ pl.length; omega, by simpa using hperm2,
          hvq2, hvrest⟩, ?_⟩
      · rw [Nat.add_sub_cancel]
        simp only [readStep, hfin, hdrain, hpull]
      · intro k h1 h2
        rw [Nat.add_sub_cancel] at h2
        exact hemp k h1 h2
  · subst hres
    refine Or.inl ⟨p1, { st with place := p1, queue := q1 }, ?_, hp1gt, hp1le, rfl,
      ⟨hfin, hchan, by show p1 ≤ pl.length; omega, by simpa using hperm1, hvq1, hvp⟩,
      hemp⟩
    rw [← hvdat]
    simp only [readStep, hfin, hdrain]


theorem lineAt_eq_getElem (pl : List SliceLine) {k : Nat} (hk : k < pl.length) :
    lineAt pl k = pl[k] := by
  unfold lineAt
  exact List.getD_eq_getElem pl _ hk

theorem filterMap_drop_empty (pl : List SliceLine) (a : Nat)
    (hemp : ∀ k, a ≤ k → k < pl.length → (lineAt pl k).data = []) :
    (pl.drop a).filterMap recView = [] := by
  apply List.filterMap_eq_nil.mpr
  intro x hx
  obtain ⟨i, hi, hxi⟩ := List.mem_iff_getElem.mp hx
  have hlen : i < pl.length - a := by simpa using hi
  have hia : a + i < pl.length := by omega
  have hget : (pl.drop a)[i] = pl[a + i] := by
    rw [List.getElem_drop]
  have hx1 : x = lineAt pl (a + i) := by
    rw [← hxi, hget, lineAt_eq_getElem pl (by omega)]
  have hx2 : x.data = [] := by
    rw [hx1]
    exact hemp (a + i) (by omega) (by omega)
  simp [recView, hx2]

theorem filterMap_drop_skip_aux (pl : List SliceLine) :
    ∀ (d a b : Nat), b - a = d → a ≤ b → b ≤ pl.length →
      (∀ k, a ≤ k → k < b → (lineAt pl k).data = []) →
      (pl.drop a).filterMap recView = (pl.drop b).filterMap recView := by
  intro d
  induction d with
  | zero =>
    intro a b hd hab hbn hemp
    have hab2 : a = b := by omega
    subst hab2
    rfl
  | succ d ihd =>
    intro a b hd hab hbn hemp
    have halt : a < b := by omega
    have han : a < pl.length := by omega
    have hdrop : pl.drop a = pl[a] :: pl.drop (a + 1) := List.drop_eq_getElem_cons han
    have hanil : pl[a].data = [] := by
      have h1 := hemp a (le_refl a) halt
      rwa [lineAt_eq_getElem pl han] at h1
    rw [hdrop, List.filterMap_cons]
    simp only [recView, hanil, List.isEmpty_nil, if_pos]
    exact ihd (a + 1) b (by omega) (by omega) hbn (fun k h1 h2 => hemp k (by omega) h2)

theorem filterMap_drop_skip (pl : List SliceLine) (a b : Nat) (hab : a ≤ b)
    (hbn : b ≤ pl.length)
    (hemp : ∀ k, a ≤ k → k < b → (lineAt pl k).data = []) :
    (pl.drop a).filterMap recView = (pl.drop b).filterMap recView :=
  filterMap_drop_skip_aux pl (b - a) a b rfl hab hbn hemp

/-- `ReadAll` under the invariant collects exactly the non-empty parsed
records from the cursor on, in line-number order, and terminates cleanly. -/
theorem readAllAux_spec (pl : List SliceLine)
    (hnums : pl.map SliceLine.num = List.range pl.length) :
    ∀ (fuel : Nat) (st : RState), InvR pl st → pl.length - st.place < fuel →
      readAllAux fuel st = ((pl.drop st.place).filterMap recView, none) := by
  intro fuel
  induction fuel with
  | zero =>
    intro st _ hfuel
    omega
  | succ fuel ih =>
    intro st hinv hfuel
    rcases readStep_spec pl hnums st hinv with
      ⟨p', st', hstep, hgt, hple, hplace, hinv', hemp⟩ | ⟨hemp, stf, hstep, _, _⟩
    · have hih := ih st' hinv' (by omega)
      rw [hplace] at hih
      have hout : (pl.drop st.place).filterMap recView =
          (if (lineAt pl (p' - 1)).data.isEmpty then
            (pl.drop p').filterMap recView
          else (lineAt pl (p' - 1)).data :: (pl.drop p').filterMap recView) := by
        have hskip := filterMap_drop_skip pl st.place (p' - 1) (by omega) (by omega)
          (fun k h1 h2 => hemp k h1 h2)
        have hp1n : p' - 1 < pl.length := by omega
        have hdrop : pl.drop (p' - 1) = pl[p' - 1] :: pl.drop p' := by
          have h1 := List.drop_eq_getElem_cons hp1n
          have h2 : p' - 1 + 1 = p' := by omega
          rwa [h2] at h1
        rw [hskip, hdrop, List.filterMap_cons]
        rw [lineAt_eq_getElem pl hp1n]
        by_cases hv : (pl[p' - 1]).data.isEmpty
        · simp [recView, hv]
        · simp [recView, hv]
      show (match readStep st with
        | ((v, some e), _) => if e = Err.eof then ([], none) else ([], some e)
        | ((v, none), st') =>
          let (rest, e') := readAllAux fuel st'
          (if v.isEmpty then rest else v :: rest, e')) =
        ((pl.drop st.place).filterMap recView, none)
      rw [hstep]
      simp only [hih]
      rw [hout]
    · show (match readStep st with
        | ((v, some e), _) => if e = Err.eof then ([], none) else ([], some e)
        | ((v, none), st') =>
          let (rest, e') := readAllAux fuel st'
          (if v.isEmpty then rest else v :: rest, e')) =
        ((pl.drop st.place).filterMap recView, none)
      rw [hstep]
      rw [filterMap_drop_empty pl st.place hemp]
      simp

/-! ## Plumbing: `mapM` over `Except`, batches versus the full line list -/

theorem parseOne_num {comma comment : Char} {l : CsvLine} {sl : SliceLine}
    (h : parseOne comma comment l = .ok sl) : sl.num = l.num := by
  unfold parseOne at h
  cases hh : l.data.head? with
  | none =>
    rw [hh] at h
    simp at h
  | some c =>
    rw [hh] at h
    have h2 : (if c = '\n' ∨ c = comment then Except.ok (SliceLine.mk [] l.num)
        else match parseFields comma (stripLineEnd l.data) with
          | Except.error _ => Except.error (Err.parseError (l.num + 1))
          | Except.ok fs => Except.ok (SliceLine.mk fs l.num)) = Except.ok sl := h
    by_cases hc : c = '\n' ∨ c = comment
    · rw [if_pos hc] at h2
      cases h2
      rfl
    · rw [if_neg hc] at h2
      cases hp : parseFields comma (stripLineEnd l.data) with
      | error e =>
        rw [hp] at h2
        simp at h2
      | ok fs =>
        rw [hp] at h2
        cases h2
        rfl

theorem mapM_parseOne_num {comma comment : Char} :
    ∀ {lines : List CsvLine} {pl : List SliceLine},
      lines.mapM (parseOne comma comment) = Except.ok pl →
      pl.map SliceLine.num = lines.map CsvLine.num := by
  intro lines
  induction lines with
  | nil =>
    intro pl h
    rw [List.mapM_nil] at h
    cases h
    rfl
  | cons a rest ih =>
    intro pl h
    rw [List.mapM_cons] at h
    cases ha : parseOne comma comment a with
    | error e =>
      rw [ha] at h
      simp [Bind.bind, Except.bind] at h
    | ok sl =>
      rw [ha] at h
      cases hr : rest.mapM (parseOne comma comment) with
      | error e =>
        rw [hr] at h
        simp [Bind.bind, Except.bind] at h
      | ok pls =>
        rw [hr] at h
        simp only [Bind.bind, Except.bind, pure, Except.pure, Except.ok.injEq] at h
        subst h
        simp [parseOne_num ha, ih hr]

theorem mapM_ok_length {α β ε : Type} {f : α → Except ε β} :
    ∀ {l : List α} {r : List β}, l.mapM f = Except.ok r → r.length = l.length := by
  intro l
  induction l with
  | nil =>
    intro r h
    rw [List.mapM_nil] at h
    cases h
    rfl
  | cons a rest ih =>
    intro r h
    rw [List.mapM_cons] at h
    cases ha : f a with
    | error e =>
      rw [ha] at h
      simp [Bind.bind, Except.bind] at h
    | ok b =>
      rw [ha] at h
      cases hr : rest.mapM f with
      | error e =>
        rw [hr] at h
        simp [Bind.bind, Except.bind] at h
      | ok bs =>
        rw [hr] at h
        simp only [Bind.bind, Except.bind, pure, Except.pure, Except.ok.injEq] at h
        subst h
        simp [ih hr]

theorem mapM_append_ok {α β ε : Type} {f : α → Except ε β} :
    ∀ {l₁ l₂ : List α} {r : List β}, (l₁ ++ l₂).mapM f = Except.ok r →
      ∃ r₁ r₂, l₁.mapM f = Except.ok r₁ ∧ l₂.mapM f = Except.ok r₂ ∧ r = r₁ ++ r₂ := by
  intro l₁
  induction l₁ with
  | nil =>
    intro l₂ r h
    exact ⟨[], r, rfl, by simpa using h, rfl⟩
  | cons a rest ih =>
    intro l₂ r h
    rw [List.cons_append, List.mapM_cons] at h
    cases ha : f a with
    | error e =>
      rw [ha] at h
      simp [Bind.bind, Except.bind] at h
    | ok b =>
      rw [ha] at h
      cases hr : (rest ++ l₂).mapM f with
      | error e =>
        rw [hr] at h
        simp [Bind.bind, Except.bind] at h
      | ok bs =>
        rw [hr] at h
        simp only [Bind.bind, Except.bind, pure, Except.pure, Except.ok.injEq] at h
        subst h
        obtain ⟨r₁, r₂, h1, h2, h3⟩ := ih hr
        refine ⟨b :: r₁, r₂, ?_, h2, by rw [h3]; rfl⟩
        rw [List.mapM_cons, ha, h1]
        rfl

theorem mapM_cons_ok {α β ε : Type} {f : α → Except ε β} {a : α} {l : List α}
    {b : β} {bs : List β} (ha : f a = Except.ok b) (hl : l.mapM f = Except.ok bs) :
    (a :: l).mapM f = Except.ok (b :: bs) := by
  rw [List.mapM_cons, ha, hl]
  rfl

theorem splitterBatchesF_flatten {α : Type} (c : Nat) :
    ∀ (fuel : Nat) (ls : List α), (splitterBatchesF c fuel ls).flatten = ls := by
  intro fuel
  induction fuel with
  | zero =>
    intro ls
    simp [splitterBatchesF]
  | succ fuel ih =>
    intro ls
    unfold splitterBatchesF
    by_cases hc : c = 0
    · simp [hc]
    · rw [if_neg hc]
      by_cases hl : ls.length < c
      · simp [hl]
      · rw [if_neg hl]
        rw [List.flatten_cons, ih]
        exact List.take_append_drop c ls

/-- Parsing commutes with the splitter's batching: when every line parses,
the per-batch parses are exactly the same-shaped chunking of the full
parsed-line list. -/
theorem splitterBatchesF_mapM (comma comment : Char) (c : Nat) :
    ∀ (fuel : Nat) (ls : List CsvLine) (pl : List SliceLine),
      ls.mapM (parseOne comma comment) = Except.ok pl →
      (splitterBatchesF c fuel ls).mapM (parseBatch comma comment) =
        Except.ok (splitterBatchesF c fuel pl) := by
  intro fuel
  induction fuel with
  | zero =>
    intro ls pl h
    show ([ls].mapM (parseBatch comma comment)) = Except.ok [pl]
    exact mapM_cons_ok h rfl
  | succ fuel ih =>
    intro ls pl h
    have hlen : pl.length = ls.length := mapM_ok_length h
    show (splitterBatchesF c (fuel + 1) ls).mapM (parseBatch comma comment) =
      Except.ok (splitterBatchesF c (fuel + 1) pl)
    unfold splitterBatchesF
    by_cases hc : c = 0
    · rw [if_pos hc, if_pos hc]
      exact mapM_cons_ok h rfl
    · rw [if_neg hc, if_neg hc]
      by_cases hl : ls.length < c
      · rw [if_pos hl, if_pos (by omega)]
        exact mapM_cons_ok h rfl
      · rw [if_neg hl, if_neg (by omega)]
        obtain ⟨r₁, r₂, h1, h2, h3⟩ :=
          @mapM_append_ok _ _ _ (parseOne comma comment) (ls.take c) (ls.drop c) pl
            (by rw [List.take_append_drop]; exact h)
        have hr₁len : r₁.length = c := by
          rw [mapM_ok_length h1, List.length_take]
          omega
        have htake : pl.take c = r₁ := by
          rw [h3, ← hr₁len, List.take_left]
        have hdrop : pl.drop c = r₂ := by
          rw [h3, ← hr₁len, List.drop_left]
        rw [htake, hdrop]
        exact mapM_cons_ok h1 (ih (ls.drop c) r₂ h2)

theorem numberedLines_map_num (s : List Char) :
    (numberedLines s).map CsvLine.num = List.range (numberedLines s).length := by
  unfold numberedLines
  rw [List.map_map, List.length_map]
  have hcomp : (CsvLine.num ∘ fun p : Nat × List Char => CsvLine.mk p.2 p.1) = Prod.fst := rfl
  rw [hcomp, List.enum_map_fst, List.enum_length]

theorem seqRecords_eq_filterMap (comma comment : Char) :
    ∀ (lines : List CsvLine) (pl : List SliceLine),
      lines.mapM (parseOne comma comment) = Except.ok pl →
      lines.filterMap (fun l => match parseOne comma comment l with
        | .ok sl => if sl.data.isEmpty then none else some sl.data
        | .error _ => none) = pl.filterMap recView := by
  intro lines
  induction lines with
  | nil =>
    intro pl h
    rw [List.mapM_nil] at h
    cases h
    rfl
  | cons a rest ih =>
    intro pl h
    rw [List.mapM_cons] at h
    cases ha : parseOne comma comment a with
    | error e =>
      rw [ha] at h
      simp [Bind.bind, Except.bind] at h
    | ok sl =>
      rw [ha] at h
      cases hr : rest.mapM (parseOne comma comment) with
      | error e =>
        rw [hr] at h
        simp [Bind.bind, Except.bind] at h
      | ok pls =>
        rw [hr] at h
        simp only [Bind.bind, Except.bind, pure, Except.pure, Except.ok.injEq] at h
        subst h
        rw [List.filterMap_cons, List.filterMap_cons, ih pls hr]
        have hfa : (match parseOne comma comment a with
          | .ok sl => if sl.data.isEmpty then none else some sl.data
          | .error _ => none) = recView sl := by
          rw [ha]
          rfl
        rw [hfa]

/-- The reassembled output of `ReadAll` on a good run: for every input
whose lines all parse and every arrival order of the parsed batches, the
non-skip parsed lines come out in line-number order with a clean
end-of-stream. -/
theorem mcReadAll_good (comma comment : Char) (c : Nat) (input : List Char)
    (pl : List SliceLine) (parsedBatches arrival : List (List SliceLine))
    (hpl : (numberedLines input).mapM (parseOne comma comment) = Except.ok pl)
    (hpb : (splitterBatches c (numberedLines input)).mapM (parseBatch comma comment) =
      Except.ok parsedBatches)
    (harr : arrival.Perm parsedBatches) :
    mcReadAll arrival = (pl.filterMap recView, none) := by
  have hlen : pl.length = (numberedLines input).length := mapM_ok_length hpl
  have hbatches : parsedBatches = splitterBatchesF c (numberedLines input).length pl := by
    have h1 := splitterBatchesF_mapM comma comment c (numberedLines input).length
      (numberedLines input) pl hpl
    rw [show splitterBatches c (numberedLines input) =
      splitterBatchesF c (numberedLines input).length (numberedLines input) from rfl,
      h1] at hpb
    injection hpb with h2
    exact h2.symm
  have hflat : parsedBatches.flatten = pl := by
    rw [hbatches]
    exact splitterBatchesF_flatten c _ pl
  have hnums : pl.map SliceLine.num = List.range pl.length := by
    rw [mapM_parseOne_num hpl, numberedLines_map_num, hlen]
  have harrflat : arrival.flatten.Perm pl := by
    rw [← hflat]
    exact harr.flatten
  have hinv : InvR pl (initState arrival) := by
    refine ⟨rfl, rfl, Nat.zero_le _, ?_, by simp [initState], ?_⟩
    · show (([] : List (Nat × List String)).map Prod.fst ++
        arrival.flatten.map SliceLine.num).Perm (List.range' 0 (pl.length - 0))
      simp only [List.map_nil, List.nil_append, Nat.sub_zero]
      have h2 := harrflat.map SliceLine.num
      rw [hnums, List.range_eq_range'] at h2
      exact h2
    · intro l hl
      exact harrflat.subset hl
  have hfuel : pl.length - (initState arrival).place < arrival.flatten.length + 1 := by
    have h3 := harrflat.length_eq
    show pl.length - 0 < arrival.flatten.length + 1
    omega
  have hmain := readAllAux_spec pl hnums (arrival.flatten.length + 1)
    (initState arrival) hinv hfuel
  show readAllAux (arrival.flatten.length + 1) (initState arrival) =
    (pl.filterMap recView, none)
  rw [hmain]
  show ((pl.drop 0).filterMap recView, none) = (pl.filterMap recView, none)
  rw [List.drop_zero]

/-- C1: for every input byte stream whose lines all parse, and for every
order in which the parsed batches can arrive from the worker pool, the
records `ReadAll` collects are exactly those the sequential reference
parser (`seqRecords`: the same splitting, filtering and single-record
parse applied in input order) produces — in strictly ascending line-number
order with skip lines omitted — and the run ends cleanly. -/
theorem c1_order_preservation (comma comment : Char) (c : Nat) (input : List Char)
    (pl : List SliceLine) (parsedBatches arrival : List (List SliceLine))
    (hpl : (numberedLines input).mapM (parseOne comma comment) = Except.ok pl)
    (hpb : (splitterBatches c (numberedLines input)).mapM (parseBatch comma comment) =
      Except.ok parsedBatches)
    (harr : arrival.Perm parsedBatches) :
    mcReadAll arrival = (seqRecords comma comment input, none) := by
  rw [mcReadAll_good comma comment c input pl parsedBatches arrival hpl hpb harr]
  unfold seqRecords
  rw [seqRecords_eq_filterMap comma comment (numberedLines input) pl hpl]

/-- Witness for C1: the input `"a,b\n\nc\n"` with `ChunkSize = 1` and the
parsed batches arriving in reverse order still reads back as
`[["a","b"], ["c"]]`. -/
theorem c1_witness :
    mcReadAll [[], [⟨["c"], 2⟩], [⟨[], 1⟩], [⟨["a", "b"], 0⟩]] =
      ([["a", "b"], ["c"]], none) := by
  have h := c1_order_preservation ',' '#' 1 ("a,b\n\nc\n".data)
    [⟨["a", "b"], 0⟩, ⟨[], 1⟩, ⟨["c"], 2⟩]
    [[⟨["a", "b"], 0⟩], [⟨[], 1⟩], [⟨["c"], 2⟩], []]
    [[], [⟨["c"], 2⟩], [⟨[], 1⟩], [⟨["a", "b"], 0⟩]]
    (by decide) (by decide) (by decide)
  rw [h]
  decide

/-! ## C9: the pending-map key invariant -/

theorem readN_succ (j : Nat) : ∀ st, readN (j + 1) st = (readStep (readN j st)).2 := by
  induction j with
  | zero =>
    intro st
    rfl
  | succ j ih =>
    intro st
    show readN (j + 1) (readStep st).2 = (readStep (readN (j + 1) st)).2
    rw [ih (readStep st).2]
    rfl

theorem keys_ge_place_of_InvR (pl : List SliceLine) (st : RState) (h : InvR pl st) :
    ∀ p ∈ st.queue, st.place ≤ p.1 := by
  obtain ⟨_, _, _, hperm, _, _⟩ := h
  intro p hp
  have h1 : p.1 ∈ st.queue.map Prod.fst ++ st.pending.flatten.map SliceLine.num :=
    List.mem_append_left _ (List.mem_map_of_mem Prod.fst hp)
  have h2 := hperm.mem_iff.mp h1
  exact (List.mem_range'_1.mp h2).1

/-- A good run stays good or stops with a latched end-of-stream and an
empty pending map. -/
theorem qsafe_step (pl : List SliceLine)
    (hnums : pl.map SliceLine.num = List.range pl.length) (st : RState)
    (h : InvR pl st ∨ (st.final = some Err.eof ∧ st.queue = [])) :
    InvR pl (readStep st).2 ∨
      ((readStep st).2.final = some Err.eof ∧ (readStep st).2.queue = []) := by
  rcases h with h | ⟨hfin, hq⟩
  · rcases readStep_spec pl hnums st h with
      ⟨p', st', hstep, _, _, _, hinv', _⟩ | ⟨_, stf, hstep, hf, hqnil⟩
    · rw [hstep]
      exact Or.inl hinv'
    · rw [hstep]
      exact Or.inr ⟨hf, hqnil⟩
  · rw [readStep_of_final st Err.eof hfin]
    exact Or.inr ⟨hfin, hq⟩

/-- C9 (amended): in every reachable state of a good run, every line
number stored as a key in the pending map is greater than *or equal to*
the next-to-deliver cursor (keys strictly below the cursor never occur);
equality is reached whenever the record at the cursor was delivered
straight from a received batch while its successors went to the map. -/
theorem c9_queue_invariant (comma comment : Char) (c : Nat) (input : List Char)
    (pl : List SliceLine) (parsedBatches arrival : List (List SliceLine))
    (hpl : (numberedLines input).mapM (parseOne comma comment) = Except.ok pl)
    (hpb : (splitterBatches c (numberedLines input)).mapM (parseBatch comma comment) =
      Except.ok parsedBatches)
    (harr : arrival.Perm parsedBatches) (k : Nat) :
    ∀ p ∈ (readN k (initState arrival)).queue,
      (readN k (initState arrival)).place ≤ p.1 := by
  have hlen : pl.length = (numberedLines input).length := mapM_ok_length hpl
  have hbatches : parsedBatches = splitterBatchesF c (numberedLines input).length pl := by
    have h1 := splitterBatchesF_mapM comma comment c (numberedLines input).length
      (numberedLines input) pl hpl
    rw [show splitterBatches c (numberedLines input) =
      splitterBatchesF c (numberedLines input).length (numberedLines input) from rfl,
      h1] at hpb
    injection hpb with h2
    exact h2.symm
  have hflat : parsedBatches.flatten = pl := by
    rw [hbatches]
    exact splitterBatchesF_flatten c _ pl
  have hnums : pl.map SliceLine.num = List.range pl.length := by
    rw [mapM_parseOne_num hpl, numberedLines_map_num, hlen]
  have harrflat : arrival.flatten.Perm pl := by
    rw [← hflat]
    exact harr.flatten
  have hinv : InvR pl (initState arrival) := by
    refine ⟨rfl, rfl, Nat.zero_le _, ?_, by simp [initState], ?_⟩
    · show (([] : List (Nat × List String)).map Prod.fst ++
        arrival.flatten.map SliceLine.num).Perm (List.range' 0 (pl.length - 0))
      simp only [List.map_nil, List.nil_append, Nat.sub_zero]
      have h2 := harrflat.map SliceLine.num
      rw [hnums, List.range_eq_range'] at h2
      exact h2
    · intro l hl
      exact harrflat.subset hl
  have hsafe : ∀ j, InvR pl (readN j (initState arrival)) ∨
      ((readN j (initState arrival)).final = some Err.eof ∧
        (readN j (initState arrival)).queue = []) := by
    intro j
    induction j with
    | zero => exact Or.inl hinv
    | succ j ihj =>
      rw [readN_succ j (initState arrival)]
      exact qsafe_step pl hnums _ ihj
  rcases hsafe k with h | ⟨_, hq⟩
  · exact keys_ge_place_of_InvR pl _ h
  · rw [hq]
    intro p hp
    simp at hp

/-- Witness for C9 (amended): after one `Read` on the reverse-order run of
`"a,b\n\nc\n"`, the pending map holds key 1 and the cursor is 1. -/
theorem c9_witness :
    (readN 1 (initState [[], [⟨["c"], 2⟩], [⟨[], 1⟩], [⟨["a", "b"], 0⟩]])).place ≤ 1 :=
  c9_queue_invariant ',' '#' 1 ("a,b\n\nc\n".data)
    [⟨["a", "b"], 0⟩, ⟨[], 1⟩, ⟨["c"], 2⟩]
    [[⟨["a", "b"], 0⟩], [⟨[], 1⟩], [⟨["c"], 2⟩], []]
    [[], [⟨["c"], 2⟩], [⟨[], 1⟩], [⟨["a", "b"], 0⟩]]
    (by decide) (by decide) (by decide) 1 (1, []) (by decide)

/-! ## C7: line filtering, numbering and skip lines -/

/-- C7: the splitter drops every line whose first byte is `'\r'` without
assigning it a line number — the numbered lines carry dense zero-based
numbers over exactly the non-`'\r'` lines — while a line whose first byte
is `'\n'` or the comment byte is carried through the pipeline as a skip
line with empty payload and the same number, and `ReadAll` never delivers
an empty record. -/
theorem c7_splitter_skip_lines (input : List Char) (comma comment : Char) :
    (numberedLines input).map CsvLine.num = List.range (keptLines input).length ∧
    (∀ l ∈ numberedLines input, l.data.head? ≠ some '\r') ∧
    (∀ l : CsvLine, l.data.head? = some '\n' ∨ l.data.head? = some comment →
      parseOne comma comment l = Except.ok ⟨[], l.num⟩) ∧
    (∀ fuel (st : RState), ∀ r ∈ (readAllAux fuel st).1, r ≠ []) := by
  refine ⟨?_, ?_, ?_, ?_⟩
  · rw [numberedLines_map_num]
    unfold numberedLines
    rw [List.length_map, List.enum_length]
  · intro l hl
    unfold numberedLines at hl
    obtain ⟨p, hp, rfl⟩ := List.mem_map.mp hl
    have hdata : p.2 ∈ keptLines input := by
      have h1 : p.2 ∈ (keptLines input).enum.map Prod.snd := List.mem_map_of_mem _ hp
      rwa [List.enum_map_snd] at h1
    have h2 := List.of_mem_filter hdata
    simpa using h2
  · intro l hl
    rcases hl with h | h
    · simp [parseOne, h]
    · simp only [parseOne, h]
      by_cases hc : comment = '\n'
      · simp [hc]
      · simp [hc]
  · intro fuel
    induction fuel with
    | zero =>
      intro st r hr
      simp [readAllAux] at hr
    | succ fuel ih =>
      intro st r hr
      have hr2 : r ∈ (match readStep st with
        | ((v, some e), _) => if e = Err.eof then ([], none) else ([], some e)
        | ((v, none), st') =>
          let (rest, e') := readAllAux fuel st'
          (if v.isEmpty then rest else v :: rest, e')).1 := hr
      rcases h : readStep st with ⟨⟨v, e⟩, st'⟩
      rw [h] at hr2
      cases e with
      | some e =>
        by_cases he : e = Err.eof
        · simp [he] at hr2
        · simp [he] at hr2
      | none =>
        rcases h2 : readAllAux fuel st' with ⟨rest, e'⟩
        have hr3 : r ∈ (match readAllAux fuel st' with
          | (rest, e') => (if v.isEmpty = true then rest else v :: rest, e')).1 := hr2
        rw [h2] at hr3
        have hr4 : r ∈ (if v.isEmpty = true then rest else v :: rest) := hr3
        by_cases hv : v.isEmpty
        · rw [if_pos hv] at hr4
          exact ih st' r (h2 ▸ hr4)
        · rw [if_neg hv] at hr4
          rcases List.mem_cons.mp hr4 with h3 | h3
          · subst h3
            intro hnil
            rw [hnil] at hv
            simp at hv
          · exact ih st' r (h2 ▸ h3)

/-- Witness for C7: a comment line parses to the empty-payload skip line
with its number, and a concrete numbered line does not start with `'\r'`. -/
theorem c7_witness :
    parseOne ',' '#' ⟨"#x\n".data, 5⟩ = Except.ok ⟨[], 5⟩ ∧
    (⟨"a,b\n".data, 0⟩ : CsvLine).data.head? ≠ some '\r' := by
  have h := c7_splitter_skip_lines ("a,b\n".data) ',' '#'
  exact ⟨h.2.2.1 ⟨"#x\n".data, 5⟩ (Or.inr (by decide)),
    h.2.1 ⟨"a,b\n".data, 0⟩ (by decide)⟩

/-! ## The serializer restores chunk order -/

theorem drop_eq_range_map_append (bufs : List (Option (List Char))) :
    ∀ (d a b : Nat), b - a = d → a ≤ b → b ≤ bufs.length →
      (List.range' a (b - a)).map (fun i => bufs.getD i none) ++ bufs.drop b =
        bufs.drop a := by
  intro d
  induction d with
  | zero =>
    intro a b hd hab hbn
    have hab2 : a = b := by omega
    subst hab2
    rw [Nat.sub_self, List.range'_zero]
    rfl
  | succ d ihd =>
    intro a b hd hab hbn
    have halt : a < b := by omega
    have han : a < bufs.length := by omega
    have hr : b - a = (b - (a + 1)) + 1 := by omega
    rw [hr, List.range'_succ, List.map_cons]
    have hga : bufs.getD a none = bufs[a] := List.getD_eq_getElem bufs _ han
    rw [List.cons_append, hga, ihd (a + 1) b (by omega) (by omega) hbn]
    exact (List.drop_eq_getElem_cons han).symm

/-- Specification of the serializer's drain loop (`startWriting`'s `Top`
label): it applies the maximal consecutive run of stashed chunks from the
cursor on, in order. -/
theorem serDrainF_spec (bufs : List (Option (List Char))) :
    ∀ (fuel : Nat) (q : List (Nat × Option (List Char))) (cur : Nat) (R : List Nat),
      q.length ≤ fuel → cur ≤ bufs.length →
      (q.map Prod.fst ++ R).Perm (List.range' cur (bufs.length - cur)) →
      (∀ x ∈ q, x.2 = bufs.getD x.1 none ∧ x.1 < bufs.length) →
      ∃ out cur' q',
        serDrainF fuel cur q = (out, cur', q') ∧
        cur ≤ cur' ∧ cur' ≤ bufs.length ∧
        lookupKey cur' q' = none ∧
        (q'.map Prod.fst ++ R).Perm (List.range' cur' (bufs.length - cur')) ∧
        (∀ x ∈ q', x.2 = bufs.getD x.1 none ∧ x.1 < bufs.length) ∧
        out = (List.range' cur (cur' - cur)).map (fun i => bufs.getD i none) := by
  intro fuel
  induction fuel with
  | zero =>
    intro q cur R hlen hcn hperm hval
    have hq : q = [] := List.length_eq_zero.mp (Nat.le_zero.mp hlen)
    subst hq
    exact ⟨[], cur, [], rfl, le_refl _, hcn, rfl, hperm, by simp,
      by rw [Nat.sub_self, List.range'_zero]; rfl⟩
  | succ fuel ih =>
    intro q cur R hlen hcn hperm hval
    cases hlk : lookupKey cur q with
    | none =>
      refine ⟨[], cur, q, ?_, le_refl _, hcn, hlk, hperm, hval, ?_⟩
      · simp [serDrainF, hlk]
      · rw [Nat.sub_self, List.range'_zero]
        rfl
    | some b =>
      have hmemq : (cur, b) ∈ q := lookupKey_mem hlk
      have hbval := hval _ hmemq
      have hcur_lt : cur < bufs.length := hbval.2
      have hkf : cur ∈ q.map Prod.fst := mem_fst_of_lookupKey hlk
      have hlen' : (removeKey cur q).length ≤ fuel := by
        have := length_removeKey hlk
        omega
      have hrange : List.range' cur (bufs.length - cur) =
          cur :: List.range' (cur + 1) (bufs.length - (cur + 1)) := by
        have h1 : bufs.length - cur = (bufs.length - (cur + 1)) + 1 := by omega
        rw [h1, List.range'_succ]
      have hperm' : ((removeKey cur q).map Prod.fst ++ R).Perm
          (List.range' (cur + 1) (bufs.length - (cur + 1))) := by
        have h1 := hperm.erase cur
        rw [hrange, List.erase_cons_head] at h1
        rw [List.erase_append_left R hkf] at h1
        rw [map_fst_removeKey]
        exact h1
      have hval' : ∀ x ∈ removeKey cur q, x.2 = bufs.getD x.1 none ∧ x.1 < bufs.length :=
        fun x hx => hval x (removeKey_subset _ _ x hx)
      obtain ⟨out, cur', q', heq, hge, hle, hlk', hperm2, hval2, hout⟩ :=
        ih (removeKey cur q) (cur + 1) R hlen' (by omega) hperm' hval'
      refine ⟨b :: out, cur', q', ?_, by omega, hle, hlk', hperm2, hval2, ?_⟩
      · simp [serDrainF, hlk, heq]
      · have hb2 : b = bufs.getD cur none := hbval.1
        have hcc : cur' - cur = (cur' - (cur + 1)) + 1 := by omega
        rw [hcc, List.range'_succ, List.map_cons, ← hout, hb2]

/-- Specification of the serializer's receive loop: when the stashed and
in-flight chunk numbers are exactly the interval from the cursor to the
end, the applied buffers are exactly the remaining buffers in order. -/
theorem serRun_spec (bufs : List (Option (List Char))) :
    ∀ (rest : List (Nat × Option (List Char))) (q : List (Nat × Option (List Char)))
      (cur : Nat),
      (q.map Prod.fst ++ rest.map Prod.fst).Perm
        (List.range' cur (bufs.length - cur)) →
      (∀ x ∈ q, x.2 = bufs.getD x.1 none ∧ x.1 < bufs.length) →
      (∀ x ∈ rest, x.2 = bufs.getD x.1 none ∧ x.1 < bufs.length) →
      lookupKey cur q = none → cur ≤ bufs.length →
      serRun cur q rest = bufs.drop cur := by
  intro rest
  induction rest with
  | nil =>
    intro q cur hperm hvq hvr hlk hcn
    have hcur : cur = bufs.length := by
      by_contra hne
      have hlt : cur < bufs.length := by omega
      have hpin : cur ∈ List.range' cur (bufs.length - cur) := by
        rw [List.mem_range'_1]
        omega
      have hmem := hperm.mem_iff.mpr hpin
      simp only [List.map_nil, List.append_nil] at hmem
      exact lookupKey_eq_none.mp hlk hmem
    rw [hcur, List.drop_length]
    rfl
  | cons chunk rest' ih =>
    intro q cur hperm hvq hvr hlk hcn
    have hvchunk := hvr chunk (List.mem_cons_self _ _)
    have hvrest' : ∀ x ∈ rest', x.2 = bufs.getD x.1 none ∧ x.1 < bufs.length :=
      fun x hx => hvr x (List.mem_cons_of_mem _ hx)
    have hnodup : (q.map Prod.fst ++ (chunk.1 :: rest'.map Prod.fst)).Nodup := by
      have h1 : (q.map Prod.fst ++ (chunk :: rest').map Prod.fst).Nodup :=
        hperm.nodup_iff.mpr (List.nodup_range' cur (bufs.length - cur))
      simpa using h1
    by_cases hc : chunk.1 = cur
    · have hcur_lt : cur < bufs.length := hc ▸ hvchunk.2
      have hchunkval : chunk.2 = bufs.getD cur none := hc ▸ hvchunk.1
      have hcur_notq : cur ∉ q.map Prod.fst := lookupKey_eq_none.mp hlk
      have hrange : List.range' cur (bufs.length - cur) =
          cur :: List.range' (cur + 1) (bufs.length - (cur + 1)) := by
        have h1 : bufs.length - cur = (bufs.length - (cur + 1)) + 1 := by omega
        rw [h1, List.range'_succ]
      have hperm1 : (q.map Prod.fst ++ rest'.map Prod.fst).Perm
          (List.range' (cur + 1) (bufs.length - (cur + 1))) := by
        have h1 : (q.map Prod.fst ++ ((chunk :: rest').map Prod.fst)).Perm
            (List.range' cur (bufs.length - cur)) := by simpa using hperm
        have h2 := h1.erase cur
        rw [hrange, List.erase_cons_head] at h2
        rw [List.erase_append_right _ hcur_notq] at h2
        have h3 : ((chunk :: rest').map Prod.fst).erase cur = rest'.map Prod.fst := by
          rw [List.map_cons, hc, List.erase_cons_head]
        rw [h3] at h2
        exact h2
      obtain ⟨out, cur', q', hdrain, hge, hle, hlk', hperm2, hval2, hout⟩ :=
        serDrainF_spec bufs q.length q (cur + 1) (rest'.map Prod.fst) (le_refl _)
          (by omega) hperm1 hvq
      have hres : serRun cur q (chunk :: rest') =
          chunk.2 :: (out ++ serRun cur' q' rest') := by
        simp [serRun, hc, hdrain]
      rw [hres, ih q' cur' hperm2 hval2 hvrest' hlk' hle]
      rw [hout, hchunkval]
      rw [drop_eq_range_map_append bufs (cur' - (cur + 1)) (cur + 1) cur' rfl
        (by omega) hle]
      have hgd : bufs.getD cur none = bufs[cur] := List.getD_eq_getElem bufs _ hcur_lt
      rw [hgd]
      exact (List.drop_eq_getElem_cons hcur_lt).symm
    · have hchunk_notq : chunk.1 ∉ q.map Prod.fst := by
        have hdisj := List.disjoint_of_nodup_append hnodup
        intro hmem
        exact hdisj hmem (by simp)
      have hins : insertKey chunk.1 chunk.2 q = (chunk.1, chunk.2) :: q := by
        unfold insertKey
        rw [removeKey_of_not_mem hchunk_notq]
      have hperm1 : (((chunk.1, chunk.2) :: q).map Prod.fst ++ rest'.map Prod.fst).Perm
          (List.range' cur (bufs.length - cur)) := by
      -- chunk.1 :: q keys ++ rest'keys ~ q keys ++ chunk.1 :: rest'keys ~ range
        have h1 : ((chunk.1 :: (q.map Prod.fst ++ rest'.map Prod.fst))).Perm
            (q.map Prod.fst ++ chunk.1 :: rest'.map Prod.fst) := List.perm_middle.symm
        have h2 : (q.map Prod.fst ++ chunk.1 :: rest'.map Prod.fst).Perm
            (List.range' cur (bufs.length - cur)) := by simpa using hperm
        simpa using h1.trans h2
      have hval1 : ∀ x ∈ (chunk.1, chunk.2) :: q,
          x.2 = bufs.getD x.1 none ∧ x.1 < bufs.length := by
        intro x hx
        rcases List.mem_cons.mp hx with rfl | hx2
        · exact hvchunk
        · exact hvq x hx2
      have hlk1 : lookupKey cur ((chunk.1, chunk.2) :: q) = none := by
        apply lookupKey_eq_none.mpr
        intro hmem
        rw [List.map_cons] at hmem
        rcases List.mem_cons.mp hmem with h2 | h2
        · exact hc h2.symm
        · exact lookupKey_eq_none.mp hlk h2
      have hres : serRun cur q (chunk :: rest') =
          serRun cur (insertKey chunk.1 chunk.2 q) rest' := by
        simp [serRun, hc]
      rw [hres, hins]
      exact ih _ cur hperm1 hval1 hvrest' hlk1 hcn

/-! ## The accumulator's emitted batches -/

theorem writeGo_nonempty (c : Nat) (st : AccState) (r : List String) (hr : r ≠ []) :
    writeGo c st r =
      if st.queueIn.length = c then
        (AccState.mk [r] (st.place + 1), [(st.place, st.queueIn)])
      else (AccState.mk (st.queueIn ++ [r]) st.place, []) := by
  have hrlen : r.length ≠ 0 := by
    intro h
    exact hr (List.length_eq_zero.mp h)
  unfold writeGo
  by_cases hfull : st.queueIn.length = c
  · simp [hfull, hrlen]
  · simp [hfull, hrlen]

theorem writeGo_flush (c : Nat) (st : AccState) :
    writeGo c st [] =
      (AccState.mk [] (st.place + 2),
        [(st.place, st.queueIn), (st.place + 1, [])]) := by
  unfold writeGo
  simp

theorem writeOp_nonempty (c : Nat) (st : AccState) (r : List String) (hr : r ≠ []) :
    writeOp c st r = (none, writeGo c st r) := by
  have hrlen : r.length ≠ 0 := by
    intro h
    exact hr (List.length_eq_zero.mp h)
  unfold writeOp
  simp [hrlen]

theorem enum_append_singleton {α : Type} (l : List α) (x : α) :
    (l ++ [x]).enum = l.enum ++ [(l.length, x)] := by
  rw [List.enum_append, List.enumFrom_cons]
  rfl

/-- The record-accepting fold of `WriteAll`: starting from a state that
has emitted the batches `bs`, it emits some further full batches and
leaves the tail of the records pending. -/
theorem writeFold_spec (c : Nat) (hc : 0 < c) :
    ∀ (records : List (List String)), (∀ r ∈ records, r ≠ []) →
      ∀ (bs : List (List (List String))) (st : AccState),
        st.place = bs.length → (∀ b ∈ bs, b ≠ []) →
        ∃ (bs' : List (List (List String))) (q' : List (List String)),
          records.foldl (fun acc r =>
            let (_, st', out') := writeOp c acc.1 r
            (st', acc.2 ++ out')) (st, bs.enum) =
            (AccState.mk q' bs'.length, bs'.enum) ∧
          bs'.flatten ++ q' = bs.flatten ++ st.queueIn ++ records ∧
          (∀ b ∈ bs', b ≠ []) ∧
          (q' = [] → records = [] ∧ st.queueIn = []) := by
  intro records
  induction records with
  | nil =>
    intro _ bs st hplace hbs
    refine ⟨bs, st.queueIn, ?_, by simp, hbs, fun h => ⟨rfl, h⟩⟩
    rw [List.foldl_nil]
    cases st with
    | mk q p =>
      simp only at hplace
      rw [hplace]
  | cons r rest ih =>
    intro hall bs st hplace hbs
    have hr : r ≠ [] := hall r (List.mem_cons_self _ _)
    have hrest : ∀ x ∈ rest, x ≠ [] := fun x hx => hall x (List.mem_cons_of_mem _ hx)
    rw [List.foldl_cons]
    rw [show writeOp c (st, bs.enum).1 r = (none, writeGo c st r) from
      writeOp_nonempty c st r hr]
    by_cases hfull : st.queueIn.length = c
    · rw [writeGo_nonempty c st r hr, if_pos hfull]
      have hout : bs.enum ++ [(st.place, st.queueIn)] = (bs ++ [st.queueIn]).enum := by
        rw [enum_append_singleton, hplace]
      show ∃ bs' q', rest.foldl _ (AccState.mk [r] (st.place + 1),
        bs.enum ++ [(st.place, st.queueIn)]) = _ ∧ _
      rw [hout]
      have hbs2 : ∀ b ∈ bs ++ [st.queueIn], b ≠ [] := by
        intro b hb
        rcases List.mem_append.mp hb with h | h
        · exact hbs b h
        · rcases List.mem_singleton.mp h with rfl
          intro hcon
          rw [hcon] at hfull
          simp at hfull
          omega
      obtain ⟨bs', q', hfold, hflat, hbs', hq'⟩ := ih hrest (bs ++ [st.queueIn])
        (AccState.mk [r] (st.place + 1))
        (by simp [hplace]) hbs2
      refine ⟨bs', q', hfold, ?_, hbs', ?_⟩
      · rw [hflat]
        simp [List.flatten_append, List.append_assoc]
      · intro h
        have h2 := (hq' h).2
        simp at h2
    · rw [writeGo_nonempty c st r hr, if_neg hfull]
      show ∃ bs' q', rest.foldl _ (AccState.mk (st.queueIn ++ [r]) st.place,
        bs.enum ++ []) = _ ∧ _
      rw [List.append_nil]
      obtain ⟨bs', q', hfold, hflat, hbs', hq'⟩ := ih hrest bs
        (AccState.mk (st.queueIn ++ [r]) st.place) hplace hbs
      refine ⟨bs', q', hfold, ?_, hbs', ?_⟩
      · rw [hflat]
        simp [List.append_assoc]
      · intro h
        have h2 := (hq' h).2
        simp at h2

/-- The batches `WriteAll` emits: the records partitioned into non-empty
batches numbered consecutively from 0, followed by one flush-fence
batch. -/
theorem writeAll_batches (c : Nat) (hc : 0 < c) (records : List (List String))
    (hne : records ≠ []) (hall : ∀ r ∈ records, r ≠ []) :
    ∃ bs : List (List (List String)),
      (writeAllOp c records).2 = bs.enum ++ [(bs.length, [])] ∧
      bs.flatten = records ∧ (∀ b ∈ bs, b ≠ []) := by
  obtain ⟨bs', q', hfold, hflat, hbs', hq'⟩ :=
    writeFold_spec c hc records hall [] (AccState.mk [] 0) rfl (by simp)
  simp only [List.flatten_nil, List.nil_append] at hflat
  have hqne : q' ≠ [] := by
    intro h
    exact hne (hq' h).1
  refine ⟨bs' ++ [q'], ?_, ?_, ?_⟩
  · show (writeAllOp c records).2 = _
    unfold writeAllOp
    rw [show ([] : List (List (List String))).enum = [] from rfl] at hfold
    rw [hfold]
    show ((flushOp c (AccState.mk q' bs'.length)).1,
      bs'.enum ++ (flushOp c (AccState.mk q' bs'.length)).2).2 = _
    unfold flushOp
    rw [writeGo_flush]
    show bs'.enum ++ [(bs'.length, q'), (bs'.length + 1, [])] = _
    rw [enum_append_singleton]
    simp [List.append_assoc]
  · rw [List.flatten_append]
    simpa using hflat
  · intro b hb
    rcases List.mem_append.mp hb with h | h
    · exact hbs' b h
    · rcases List.mem_singleton.mp h with rfl
      exact hqne

theorem parseOne_eq_of_head {comma comment : Char} {l : CsvLine} {c : Char}
    (hh : l.data.head? = some c) :
    parseOne comma comment l =
      (if c = '\n' ∨ c = comment then Except.ok (SliceLine.mk [] l.num)
       else match parseFields comma (stripLineEnd l.data) with
         | Except.error _ => Except.error (Err.parseError (l.num + 1))
         | Except.ok fs => Except.ok (SliceLine.mk fs l.num)) := by
  show (match l.data.head? with
    | none => Except.error (Err.ioErr 0)
    | some c =>
      if c = '\n' ∨ c = comment then Except.ok (SliceLine.mk [] l.num)
      else match parseFields comma (stripLineEnd l.data) with
        | Except.error _ => Except.error (Err.parseError (l.num + 1))
        | Except.ok fs => Except.ok (SliceLine.mk fs l.num)) = _
  rw [hh]

/-! ## C2: the encoder is a section of the parser -/

theorem parseQuoted_enc (comma : Char) (tail : List Char) (res : Option (List Char))
    (htail : tail ≠ [])
    (hbase : ∀ acc : List Char, parseQuoted comma acc tail = Except.ok (acc.reverse, res)) :
    ∀ (s acc : List Char),
      parseQuoted comma acc (escapeQuotes s ++ tail) = Except.ok (acc.reverse ++ s, res) := by
  intro s
  induction s with
  | nil =>
    intro acc
    simpa [escapeQuotes] using hbase acc
  | cons c s' ih =>
    intro acc
    by_cases hc : c = '"'
    · subst hc
      rw [show escapeQuotes ('"' :: s') = '"' :: '"' :: escapeQuotes s' from by
        simp [escapeQuotes]]
      rw [List.cons_append, List.cons_append]
      rw [show parseQuoted comma acc ('"' :: '"' :: (escapeQuotes s' ++ tail)) =
        parseQuoted comma ('"' :: acc) (escapeQuotes s' ++ tail) from by
        simp [parseQuoted]]
      rw [ih ('"' :: acc)]
      simp
    · rw [show escapeQuotes (c :: s') = c :: escapeQuotes s' from by
        simp [escapeQuotes, hc]]
      rw [List.cons_append]
      cases he : escapeQuotes s' ++ tail with
      | nil =>
        rcases List.append_eq_nil.mp he with ⟨-, h2⟩
        exact absurd h2 htail
      | cons d rest =>
        rw [show parseQuoted comma acc (c :: d :: rest) =
          parseQuoted comma (c :: acc) (d :: rest) from by
          simp [parseQuoted, hc]]
        rw [← he, ih (c :: acc)]
        simp

theorem parseQuoted_close_none (comma : Char) (acc : List Char) :
    parseQuoted comma acc ['"'] = Except.ok (acc.reverse, none) := by
  simp [parseQuoted]

theorem parseQuoted_close_some (comma : Char) (hcq : comma ≠ '"') (t : List Char)
    (acc : List Char) :
    parseQuoted comma acc ('"' :: comma :: t) = Except.ok (acc.reverse, some t) := by
  have h2 : ¬(comma = '"') := hcq
  simp [parseQuoted, h2]

theorem parseBare_enc (comma : Char) (tail : List Char) (res : Option (List Char))
    (hbase : ∀ acc : List Char, parseBare comma acc tail = Except.ok (acc.reverse, res)) :
    ∀ (s acc : List Char), comma ∉ s → '"' ∉ s →
      parseBare comma acc (s ++ tail) = Except.ok (acc.reverse ++ s, res) := by
  intro s
  induction s with
  | nil =>
    intro acc _ _
    simpa using hbase acc
  | cons c s' ih =>
    intro acc hcm hq
    have hc1 : ¬(c = comma) := fun h => hcm (by rw [← h]; exact List.mem_cons_self _ _)
    have hc2 : ¬(c = '"') := fun h => hq (by rw [← h]; exact List.mem_cons_self _ _)
    rw [List.cons_append]
    rw [show parseBare comma acc (c :: (s' ++ tail)) =
      parseBare comma (c :: acc) (s' ++ tail) from by simp [parseBare, hc1, hc2]]
    rw [ih (c :: acc) (fun h => hcm (List.mem_cons_of_mem _ h))
      (fun h => hq (List.mem_cons_of_mem _ h))]
    simp

theorem parseBare_nil (comma : Char) (acc : List Char) :
    parseBare comma acc [] = Except.ok (acc.reverse, none) := by
  simp [parseBare]

theorem parseBare_comma (comma : Char) (t : List Char) (acc : List Char) :
    parseBare comma acc (comma :: t) = Except.ok (acc.reverse, some t) := by
  simp [parseBare]

theorem not_mem_of_needsQuote_eq_false {comma : Char} {s : List Char}
    (h : needsQuote comma s = false) : comma ∉ s ∧ '"' ∉ s ∧ '\n' ∉ s := by
  unfold needsQuote at h
  rw [List.any_eq_false] at h
  refine ⟨fun hm => ?_, fun hm => ?_, fun hm => ?_⟩
  · have := h comma hm
    simp at this
  · have := h '"' hm
    simp at this
  · have := h '\n' hm
    simp at this

theorem length_le_encodeFields (comma : Char) :
    ∀ r : List String, r ≠ [] → r.length ≤ (encodeFields comma r).length + 1 := by
  intro r
  induction r with
  | nil => simp
  | cons f rest ih =>
    intro _
    cases rest with
    | nil => simp
    | cons g rest' =>
      have h2 := ih (by simp)
      rw [show encodeFields comma (f :: g :: rest') =
        encodeField comma f ++ comma :: encodeFields comma (g :: rest') from by
        simp [encodeFields]]
      simp only [List.length_cons, List.length_append] at h2 ⊢
      omega

theorem parseFieldsAux_enc (comma : Char) (hcq : comma ≠ '"') :
    ∀ (r : List String) (fuel : Nat), r ≠ [] → r.length ≤ fuel + 1 →
      parseFieldsAux comma (fuel + 1) (encodeFields comma r) = Except.ok r := by
  intro r
  induction r with
  | nil =>
    intro fuel h _
    exact absurd rfl h
  | cons f rest ih =>
    intro fuel _ hfuel
    cases rest with
    | nil =>
      by_cases hnq : needsQuote comma f.data
      · rw [show encodeFields comma [f] = '"' :: (escapeQuotes f.data ++ ['"']) from by
          simp [encodeFields, encodeField, hnq]]
        have hq := parseQuoted_enc comma ['"'] none (by simp)
          (fun acc => parseQuoted_close_none comma acc) f.data []
        simp only [List.reverse_nil, List.nil_append] at hq
        simp only [parseFieldsAux, List.head?_cons, List.tail_cons, if_pos]
        rw [hq]
      · obtain ⟨hcm, hqm, -⟩ :=
          not_mem_of_needsQuote_eq_false (Bool.eq_false_iff.mpr hnq)
        rw [show encodeFields comma [f] = f.data from by
          simp [encodeFields, encodeField, hnq]]
        have hb := parseBare_enc comma [] none
          (fun acc => parseBare_nil comma acc) f.data [] hcm hqm
        simp only [List.reverse_nil, List.nil_append, List.append_nil] at hb
        have hhead : ¬(f.data.head? = some '"') := by
          intro h
          cases hd : f.data with
          | nil => rw [hd] at h; simp at h
          | cons a t =>
            rw [hd] at h
            simp only [List.head?_cons, Option.some.injEq] at h
            exact hqm (by rw [hd, h]; exact List.mem_cons_self _ _)
        simp only [parseFieldsAux]
        rw [if_neg hhead, hb]
    | cons g rest' =>
      cases fuel with
      | zero => simp at hfuel
      | succ fuel' =>
        have hrec : parseFieldsAux comma (fuel' + 1)
            (encodeFields comma (g :: rest')) = Except.ok (g :: rest') := by
          apply ih fuel' (by simp)
          simp only [List.length_cons] at hfuel ⊢
          omega
        by_cases hnq : needsQuote comma f.data
        · rw [show encodeFields comma (f :: g :: rest') =
            '"' :: (escapeQuotes f.data ++
              ('"' :: comma :: encodeFields comma (g :: rest'))) from by
            simp [encodeFields, encodeField, hnq]]
          have hq := parseQuoted_enc comma
            ('"' :: comma :: encodeFields comma (g :: rest')) (some (encodeFields comma (g :: rest')))
            (by simp)
            (fun acc => parseQuoted_close_some comma hcq _ acc) f.data []
          simp only [List.reverse_nil, List.nil_append] at hq
          generalize hk : fuel' + 1 = k at hrec ⊢
          simp only [parseFieldsAux, List.head?_cons, List.tail_cons, if_pos]
          rw [hq]
          simp [hrec]
        · obtain ⟨hcm, hqm, -⟩ :=
            not_mem_of_needsQuote_eq_false (Bool.eq_false_iff.mpr hnq)
          rw [show encodeFields comma (f :: g :: rest') =
            f.data ++ comma :: encodeFields comma (g :: rest') from by
            simp [encodeFields, encodeField, hnq]]
          have hb := parseBare_enc comma (comma :: encodeFields comma (g :: rest'))
            (some (encodeFields comma (g :: rest')))
            (fun acc => parseBare_comma comma _ acc) f.data [] hcm hqm
          simp only [List.reverse_nil, List.nil_append] at hb
          have hhead : ¬((f.data ++ comma :: encodeFields comma (g :: rest')).head? =
              some '"') := by
            intro h
            cases hd : f.data with
            | nil =>
              rw [hd] at h
              simp only [List.nil_append, List.head?_cons, Option.some.injEq] at h
              exact hcq h
            | cons a t =>
              rw [hd] at h
              simp only [List.cons_append, List.head?_cons, Option.some.injEq] at h
              exact hqm (by rw [hd, h]; exact List.mem_cons_self _ _)
          generalize hk : fuel' + 1 = k at hrec ⊢
          simp only [parseFieldsAux]
          rw [if_neg hhead, hb]
          simp [hrec]

theorem parseFields_encodeFields (comma : Char) (hcq : comma ≠ '"') (r : List String)
    (hne : r ≠ []) : parseFields comma (encodeFields comma r) = Except.ok r := by
  unfold parseFields
  exact parseFieldsAux_enc comma hcq r (encodeFields comma r).length hne
    (length_le_encodeFields comma r hne)

theorem mem_escapeQuotes {x : Char} : ∀ {s : List Char}, x ∈ escapeQuotes s → x ∈ s := by
  intro s
  induction s with
  | nil =>
    intro h
    simp [escapeQuotes] at h
  | cons c s' ih =>
    intro h
    by_cases hc : c = '"'
    · subst hc
      rw [show escapeQuotes ('"' :: s') = '"' :: '"' :: escapeQuotes s' from by
        simp [escapeQuotes]] at h
      simp only [List.mem_cons] at h ⊢
      rcases h with h | h | h
      · exact Or.inl h
      · exact Or.inl h
      · exact Or.inr (ih h)
    · rw [show escapeQuotes (c :: s') = c :: escapeQuotes s' from by
        simp [escapeQuotes, hc]] at h
      simp only [List.mem_cons] at h ⊢
      rcases h with h | h
      · exact Or.inl h
      · exact Or.inr (ih h)

theorem mem_encodeField {comma x : Char} {f : String} (h : x ∈ encodeField comma f) :
    x ∈ f.data ∨ x = '"' := by
  unfold encodeField at h
  by_cases hnq : needsQuote comma f.data
  · rw [if_pos hnq] at h
    simp only [List.mem_cons, List.mem_append, List.mem_singleton, List.not_mem_nil,
      or_false] at h
    rcases h with h | h | h
    · exact Or.inr h
    · exact Or.inl (mem_escapeQuotes h)
    · exact Or.inr h
  · rw [if_neg hnq] at h
    exact Or.inl h

theorem mem_encodeFields {comma x : Char} :
    ∀ {r : List String}, x ∈ encodeFields comma r →
      (∃ f ∈ r, x ∈ f.data) ∨ x = '"' ∨ x = comma := by
  intro r
  induction r with
  | nil =>
    intro h
    simp [encodeFields] at h
  | cons f rest ih =>
    intro h
    cases rest with
    | nil =>
      rw [show encodeFields comma [f] = encodeField comma f from by
        simp [encodeFields]] at h
      rcases mem_encodeField h with h | h
      · exact Or.inl ⟨f, by simp, h⟩
      · exact Or.inr (Or.inl h)
    | cons g rest' =>
      rw [show encodeFields comma (f :: g :: rest') =
        encodeField comma f ++ comma :: encodeFields comma (g :: rest') from by
        simp [encodeFields]] at h
      rcases List.mem_append.mp h with h | h
      · rcases mem_encodeField h with h | h
        · exact Or.inl ⟨f, by simp, h⟩
        · exact Or.inr (Or.inl h)
      · rcases List.mem_cons.mp h with h | h
        · exact Or.inr (Or.inr h)
        · rcases ih h with ⟨f', hf', hx⟩ | h | h
          · exact Or.inl ⟨f', List.mem_cons_of_mem _ hf', hx⟩
          · exact Or.inr (Or.inl h)
          · exact Or.inr (Or.inr h)

theorem not_mem_encodeFields_of_clean {x : Char} {r : List String}
    (hf : ∀ f ∈ r, x ∉ f.data) (hq : x ≠ '"') (hc : x ≠ ',') :
    x ∉ encodeFields ',' r := by
  intro hm
  rcases mem_encodeFields hm with ⟨f, hfr, hxf⟩ | h | h
  · exact hf f hfr hxf
  · exact hq h
  · exact hc h

theorem encodeFields_ne_nil {comma : Char} {r : List String} (h : recordClean r) :
    encodeFields comma r ≠ [] := by
  obtain ⟨hne, hnsingle, -⟩ := h
  cases r with
  | nil => exact absurd rfl hne
  | cons f rest =>
    cases rest with
    | nil =>
      rw [show encodeFields comma [f] = encodeField comma f from by
        simp [encodeFields]]
      unfold encodeField
      by_cases hnq : needsQuote comma f.data
      · simp [hnq]
      · rw [if_neg hnq]
        intro hd
        apply hnsingle
        have hfe : f = "" := by
          apply String.ext
          rw [hd]
        rw [hfe]
    | cons g rest' =>
      rw [show encodeFields comma (f :: g :: rest') =
        encodeField comma f ++ comma :: encodeFields comma (g :: rest') from by
        simp [encodeFields]]
      simp

theorem mem_of_getLast? {α : Type} : ∀ {l : List α} {a : α}, l.getLast? = some a → a ∈ l := by
  intro l
  induction l with
  | nil =>
    intro a h
    simp at h
  | cons x t ih =>
    intro a h
    cases t with
    | nil =>
      simp at h
      simp [h]
    | cons y t' =>
      rw [List.getLast?_cons_cons] at h
      exact List.mem_cons_of_mem _ (ih h)

theorem stripLineEnd_body (body : List Char) (hcr : '\r' ∉ body) :
    stripLineEnd (body ++ ['\n']) = body := by
  unfold stripLineEnd
  simp only [List.getLast?_concat, List.dropLast_concat, reduceCtorEq, ite_true, if_pos]
  rw [if_neg]
  intro h
  exact hcr (mem_of_getLast? h)

theorem parseOne_encodeRecord (r : List String) (h : recordClean r) (i : Nat) :
    parseOne ',' (Char.ofNat 0) (CsvLine.mk (encodeRecord ',' r) i) =
      Except.ok (SliceLine.mk r i) := by
  obtain ⟨hne, hnsingle, hclean⟩ := h
  have hnl : '\n' ∉ encodeFields ',' r :=
    not_mem_encodeFields_of_clean (fun f hf => (hclean f hf).1) (by decide) (by decide)
  have hnul : (Char.ofNat 0) ∉ encodeFields ',' r :=
    not_mem_encodeFields_of_clean (fun f hf => (hclean f hf).2.2) (by decide) (by decide)
  have hcr : '\r' ∉ encodeFields ',' r :=
    not_mem_encodeFields_of_clean (fun f hf => (hclean f hf).2.1) (by decide) (by decide)
  have hbne : encodeFields ',' r ≠ [] := encodeFields_ne_nil ⟨hne, hnsingle, hclean⟩
  obtain ⟨c, body', hb⟩ : ∃ c t, encodeFields ',' r = c :: t := by
    cases hd : encodeFields ',' r with
    | nil => exact absurd hd hbne
    | cons a t => exact ⟨a, t, rfl⟩
  have hcmem : c ∈ encodeFields ',' r := by
    rw [hb]
    exact List.mem_cons_self _ _
  have hh : (CsvLine.mk (encodeRecord ',' r) i).data.head? = some c := by
    show (encodeRecord ',' r).head? = some c
    rw [show encodeRecord ',' r = encodeFields ',' r ++ ['\n'] from rfl, hb, List.cons_append]
    rfl
  rw [parseOne_eq_of_head hh]
  have hc1 : ¬(c = '\n' ∨ c = Char.ofNat 0) := by
    rintro (h1 | h1)
    · exact hnl (h1 ▸ hcmem)
    · exact hnul (h1 ▸ hcmem)
  rw [if_neg hc1]
  have hstrip : stripLineEnd (CsvLine.mk (encodeRecord ',' r) i).data =
      encodeFields ',' r := by
    show stripLineEnd (encodeRecord ',' r) = _
    rw [show encodeRecord ',' r = encodeFields ',' r ++ ['\n'] from rfl]
    exact stripLineEnd_body _ hcr
  rw [hstrip, parseFields_encodeFields ',' (by decide) r hne]

theorem splitLinesAux_line :
    ∀ (body acc rest : List Char), '\n' ∉ body →
      splitLinesAux acc (body ++ '\n' :: rest) =
        ((acc.reverse ++ body) ++ ['\n']) :: splitLinesAux [] rest := by
  intro body
  induction body with
  | nil =>
    intro acc rest _
    simp [splitLinesAux]
  | cons c body' ih =>
    intro acc rest h
    have hc : ¬(c = '\n') := fun hh => h (by rw [← hh] at *; exact List.mem_cons_self _ _)
    rw [List.cons_append]
    rw [show splitLinesAux acc (c :: (body' ++ '\n' :: rest)) =
      splitLinesAux (c :: acc) (body' ++ '\n' :: rest) from by
      simp [splitLinesAux, hc]]
    rw [ih (c :: acc) rest (fun hh => h (List.mem_cons_of_mem _ hh))]
    simp

theorem splitLines_flatten_lines :
    ∀ (lines : List (List Char)),
      (∀ l ∈ lines, ∃ body, l = body ++ ['\n'] ∧ '\n' ∉ body) →
      splitLines lines.flatten = lines := by
  intro lines
  induction lines with
  | nil =>
    intro _
    simp [splitLines, splitLinesAux]
  | cons l rest ih =>
    intro h
    obtain ⟨body, hl, hnl⟩ := h l (List.mem_cons_self _ _)
    rw [List.flatten_cons, hl]
    show splitLinesAux [] ((body ++ ['\n']) ++ rest.flatten) = (body ++ ['\n']) :: rest
    rw [List.append_assoc, List.singleton_append]
    rw [splitLinesAux_line body [] rest.flatten hnl]
    rw [show splitLinesAux [] rest.flatten = splitLines rest.flatten from rfl]
    rw [ih (fun x hx => h x (List.mem_cons_of_mem _ hx))]
    simp

theorem keptLines_flatten_lines (lines : List (List Char))
    (h : ∀ l ∈ lines, ∃ body, l = body ++ ['\n'] ∧ '\n' ∉ body ∧ body.head? ≠ some '\r') :
    keptLines lines.flatten = lines := by
  unfold keptLines
  rw [splitLines_flatten_lines lines (fun l hl => by
    obtain ⟨body, h1, h2, -⟩ := h l hl
    exact ⟨body, h1, h2⟩)]
  apply List.filter_eq_self.mpr
  intro l hl
  obtain ⟨body, hb, -, hhead⟩ := h l hl
  cases hd : body with
  | nil =>
    rw [hd] at hb
    rw [hb]
    decide
  | cons a t =>
    rw [hd] at hb hhead
    rw [hb, List.cons_append]
    have ha : ¬(a = '\r') := fun hh => hhead (by rw [hh]; rfl)
    simp [ha]

theorem mapM_parse_encoded :
    ∀ (rs : List (List String)), (∀ r ∈ rs, recordClean r) → ∀ (n : Nat),
      (((rs.map (encodeRecord ',')).enumFrom n).map
        (fun p => CsvLine.mk p.2 p.1)).mapM (parseOne ',' (Char.ofNat 0)) =
      Except.ok ((rs.enumFrom n).map (fun p => SliceLine.mk p.2 p.1)) := by
  intro rs
  induction rs with
  | nil =>
    intro _ n
    rfl
  | cons r rs' ih =>
    intro h n
    simp only [List.map_cons, List.enumFrom_cons]
    exact mapM_cons_ok (parseOne_encodeRecord r (h r (List.mem_cons_self _ _)) n)
      (ih (fun x hx => h x (List.mem_cons_of_mem _ hx)) (n + 1))

theorem filterMap_recView_enum :
    ∀ (rs : List (List String)), (∀ r ∈ rs, r ≠ []) → ∀ (n : Nat),
      ((rs.enumFrom n).map (fun p => SliceLine.mk p.2 p.1)).filterMap recView = rs := by
  intro rs
  induction rs with
  | nil =>
    intro _ n
    rfl
  | cons r rs' ih =>
    intro h n
    simp only [List.enumFrom_cons, List.map_cons]
    have hrv : recView (SliceLine.mk r n) = some r := by
      simp only [recView]
      rw [if_neg]
      intro hcon
      exact h r (List.mem_cons_self _ _) (List.isEmpty_iff.mp hcon)
    rw [List.filterMap_cons, hrv]
    rw [ih (fun x hx => h x (List.mem_cons_of_mem _ hx)) (n + 1)]

theorem map_getD_of_mapM_ok {α β ε : Type} {f : α → Except ε β} (d : β) :
    ∀ {l : List α} {r : List β}, l.mapM f = Except.ok r →
      l.map (fun a => (f a).toOption.getD d) = r := by
  intro l
  induction l with
  | nil =>
    intro r h
    rw [List.mapM_nil] at h
    cases h
    rfl
  | cons a rest ih =>
    intro r h
    rw [List.mapM_cons] at h
    cases ha : f a with
    | error e =>
      rw [ha] at h
      simp [Bind.bind, Except.bind] at h
    | ok b =>
      rw [ha] at h
      cases hrm : rest.mapM f with
      | error e =>
        rw [hrm] at h
        simp [Bind.bind, Except.bind] at h
      | ok bs =>
        rw [hrm] at h
        simp only [Bind.bind, Except.bind, pure, Except.pure, Except.ok.injEq] at h
        subst h
        simp only [List.map_cons, ih hrm, ha]
        rfl

theorem flatten_map_encodeBatch (comma : Char) :
    ∀ (bs : List (List (List String))),
      (bs.map (encodeBatch comma)).flatten =
        (bs.flatten.map (encodeRecord comma)).flatten := by
  intro bs
  induction bs with
  | nil => rfl
  | cons b rest ih =>
    simp [encodeBatch, List.flatten_append, ih]

theorem mem_enumFrom_spec {α : Type} :
    ∀ (l : List α) (n : Nat) (x : Nat × α), x ∈ l.enumFrom n →
      n ≤ x.1 ∧ x.1 - n < l.length ∧ ∀ d, l.getD (x.1 - n) d = x.2 := by
  intro l
  induction l with
  | nil =>
    intro n x hx
    simp at hx
  | cons a t ih =>
    intro n x hx
    rw [List.enumFrom_cons] at hx
    rcases List.mem_cons.mp hx with h | h
    · subst h
      exact ⟨le_refl _, by simp, fun d => by simp⟩
    · obtain ⟨h1, h2, h3⟩ := ih (n + 1) x h
      refine ⟨by omega, by simp only [List.length_cons]; omega, ?_⟩
      intro d
      have hx1 : x.1 - n = (x.1 - (n + 1)) + 1 := by omega
      rw [hx1]
      simpa using h3 d

theorem mem_enum_spec {α : Type} (l : List α) (x : Nat × α) (hx : x ∈ l.enum) :
    x.1 < l.length ∧ ∀ d, l.getD x.1 d = x.2 := by
  obtain ⟨-, h2, h3⟩ := mem_enumFrom_spec l 0 x hx
  rw [Nat.sub_zero] at h2
  refine ⟨h2, fun d => ?_⟩
  have := h3 d
  rwa [Nat.sub_zero] at this

theorem map_encodeChunk_enum (comma : Char) (bs : List (List (List String)))
    (hbs : ∀ b ∈ bs, b ≠ []) :
    (bs.enum ++ [(bs.length, [])]).map (encodeChunk comma) =
      (bs.map (fun b => some (encodeBatch comma b)) ++
        [(none : Option (List Char))]).enum := by
  rw [List.map_append, enum_append_singleton, List.length_map]
  congr 1
  · rw [List.enum_map]
    apply List.map_congr_left
    intro p hp
    have hmem : p.2 ∈ bs := by
      have h1 : p.2 ∈ bs.enum.map Prod.snd := List.mem_map_of_mem _ hp
      rwa [List.enum_map_snd] at h1
    have hne := hbs p.2 hmem
    cases p with
    | mk i b =>
      have hbf : b.isEmpty = false := by
        cases b with
        | nil => exact absurd rfl hne
        | cons x t => rfl
      simp [encodeChunk, Prod.map, hbf]

theorem filterMap_id_map_some {α β : Type} (g : β → α) (l : List β) :
    (l.map (fun b => some (g b))).filterMap id = l.map g := by
  induction l with
  | nil => rfl
  | cons a t ih => simp [ih]

/-- C2 (amended): the encode/decode round trip at default configuration.
For a non-empty list of records, each record non-empty, not the single
empty field, and with fields free of newline, carriage return and NUL
bytes, reading back the bytes `WriteAll` produced yields exactly the
original records and a clean end of stream — for every write-side
`ChunkSize ≥ 1`, every read-side `ChunkSize`, every order in which the
encoded chunks reach the Writer's serializer, and every order in which
the parsed batches reach the Reader's reorderer. -/
theorem c2_roundtrip (cw cr : Nat) (hcw : 0 < cw)
    (records : List (List String)) (hne : records ≠ [])
    (hclean : ∀ r ∈ records, recordClean r)
    (wArr : List (Nat × Option (List Char)))
    (hw : wArr.Perm (((writeAllOp cw records).2).map (encodeChunk ',')))
    (rArr : List (List SliceLine))
    (hra : rArr.Perm
      (goodParsedBatches ',' (Char.ofNat 0) cr (serializedBytes wArr))) :
    mcReadAll rArr = (records, none) := by
  obtain ⟨bs, hbse, hbsflat, hbsne⟩ :=
    writeAll_batches cw hcw records hne (fun r h => (hclean r h).1)
  obtain ⟨bufs, hbufs⟩ : ∃ bufs : List (Option (List Char)),
      bufs = bs.map (fun b => some (encodeBatch ',' b)) ++ [none] := ⟨_, rfl⟩
  have hmap : ((writeAllOp cw records).2).map (encodeChunk ',') = bufs.enum := by
    rw [hbse, hbufs]
    exact map_encodeChunk_enum ',' bs hbsne
  rw [hmap] at hw
  have hperm0 : (([] : List (Nat × Option (List Char))).map Prod.fst ++
      wArr.map Prod.fst).Perm (List.range' 0 (bufs.length - 0)) := by
    simp only [List.map_nil, List.nil_append, Nat.sub_zero]
    have h1 := hw.map Prod.fst
    rw [List.enum_map_fst, List.range_eq_range'] at h1
    exact h1
  have hvr : ∀ x ∈ wArr, x.2 = bufs.getD x.1 none ∧ x.1 < bufs.length := by
    intro x hx
    obtain ⟨h1, h2⟩ := mem_enum_spec bufs x (hw.subset hx)
    exact ⟨(h2 none).symm, h1⟩
  have hser : serRun 0 [] wArr = bufs := by
    have h := serRun_spec bufs wArr [] 0 hperm0 (by intro x hx; simp at hx) hvr rfl
      (Nat.zero_le _)
    rwa [List.drop_zero] at h
  have hbytes : serializedBytes wArr = (records.map (encodeRecord ',')).flatten := by
    show ((serRun 0 [] wArr).filterMap id).flatten = _
    rw [hser, hbufs, List.filterMap_append, filterMap_id_map_some]
    rw [show ([(none : Option (List Char))].filterMap id) = [] from rfl, List.append_nil]
    rw [flatten_map_encodeBatch, hbsflat]
  have hlines : ∀ l ∈ records.map (encodeRecord ','),
      ∃ body, l = body ++ ['\n'] ∧ '\n' ∉ body ∧ body.head? ≠ some '\r' := by
    intro l hl
    obtain ⟨r, hrmem, rfl⟩ := List.mem_map.mp hl
    obtain ⟨hne', hnsingle, hcl⟩ := hclean r hrmem
    have hnl : '\n' ∉ encodeFields ',' r :=
      not_mem_encodeFields_of_clean (fun f hf => (hcl f hf).1) (by decide) (by decide)
    have hcr2 : '\r' ∉ encodeFields ',' r :=
      not_mem_encodeFields_of_clean (fun f hf => (hcl f hf).2.1) (by decide) (by decide)
    refine ⟨encodeFields ',' r, rfl, hnl, ?_⟩
    intro hcon
    apply hcr2
    cases hb : encodeFields ',' r with
    | nil =>
      rw [hb] at hcon
      simp at hcon
    | cons a t =>
      rw [hb] at hcon
      simp only [List.head?_cons, Option.some.injEq] at hcon
      rw [← hcon]
      exact List.mem_cons_self _ _
  have hnumbered : numberedLines ((records.map (encodeRecord ',')).flatten) =
      (records.map (encodeRecord ',')).enum.map (fun p => CsvLine.mk p.2 p.1) := by
    unfold numberedLines
    rw [keptLines_flatten_lines _ hlines]
  have hpl : (numberedLines ((records.map (encodeRecord ',')).flatten)).mapM
      (parseOne ',' (Char.ofNat 0)) =
      Except.ok (records.enum.map (fun p => SliceLine.mk p.2 p.1)) := by
    rw [hnumbered]
    exact mapM_parse_encoded records hclean 0
  have hpb := splitterBatchesF_mapM ',' (Char.ofNat 0) cr
    (numberedLines ((records.map (encodeRecord ',')).flatten)).length
    (numberedLines ((records.map (encodeRecord ',')).flatten))
    (records.enum.map (fun p => SliceLine.mk p.2 p.1)) hpl
  have hgood : goodParsedBatches ',' (Char.ofNat 0) cr
      ((records.map (encodeRecord ',')).flatten) =
      splitterBatchesF cr
        (numberedLines ((records.map (encodeRecord ',')).flatten)).length
        (records.enum.map (fun p => SliceLine.mk p.2 p.1)) := by
    unfold goodParsedBatches splitterBatches
    exact map_getD_of_mapM_ok [] hpb
  rw [hbytes, hgood] at hra
  have hmain := mcReadAll_good ',' (Char.ofNat 0) cr
    ((records.map (encodeRecord ',')).flatten)
    (records.enum.map (fun p => SliceLine.mk p.2 p.1)) _ rArr hpl hpb hra
  rw [hmain]
  rw [show (records.enum.map (fun p => SliceLine.mk p.2 p.1)).filterMap recView
    = records from filterMap_recView_enum records (fun r h => (hclean r h).1) 0]

/-- Witness for C2: `WriteAll [["a,b"], ["c"]]` at write-side ChunkSize 1,
with the three encoded chunks reaching the serializer in reverse order and
the two parsed batches reaching the reorderer in reverse order, reads back
as `[["a,b"], ["c"]]` at read-side ChunkSize 2. -/
theorem c2_witness :
    mcReadAll [[], [⟨["a,b"], 0⟩, ⟨["c"], 1⟩]] = ([["a,b"], ["c"]], none) :=
  c2_roundtrip 1 2 (by decide) [["a,b"], ["c"]] (by decide)
    (by simp only [recordClean, fieldClean]; decide)
    [(2, none), (1, some "c\n".data), (0, some "\"a,b\"\n".data)] (by decide)
    [[], [⟨["a,b"], 0⟩, ⟨["c"], 1⟩]] (by decide)

/-! ## C4: the parse-error line rewrite -/

theorem splitLinesAux_ne_nil :
    ∀ (s acc : List Char) (l : List Char), l ∈ splitLinesAux acc s → l ≠ [] := by
  intro s
  induction s with
  | nil =>
    intro acc l hl
    unfold splitLinesAux at hl
    by_cases ha : acc.isEmpty
    · simp [ha] at hl
    · rw [if_neg ha] at hl
      rcases List.mem_singleton.mp hl with rfl
      intro hcon
      rw [List.reverse_eq_nil_iff] at hcon
      rw [hcon] at ha
      simp at ha
  | cons c rest ih =>
    intro acc l hl
    unfold splitLinesAux at hl
    by_cases hc : c = '\n'
    · rw [if_pos hc] at hl
      rcases List.mem_cons.mp hl with rfl | h2
      · simp
      · exact ih [] l h2
    · rw [if_neg hc] at hl
      exact ih (c :: acc) l hl

theorem splitLines_ne_nil {s : List Char} {l : List Char} (hl : l ∈ splitLines s) :
    l ≠ [] :=
  splitLinesAux_ne_nil s [] l hl

theorem numberedLines_data_ne_nil {s : List Char} {l : CsvLine}
    (hl : l ∈ numberedLines s) : l.data ≠ [] := by
  unfold numberedLines at hl
  obtain ⟨p, hp, rfl⟩ := List.mem_map.mp hl
  have hdata : p.2 ∈ keptLines s := by
    have h1 : p.2 ∈ (keptLines s).enum.map Prod.snd := List.mem_map_of_mem _ hp
    rwa [List.enum_map_snd] at h1
  exact splitLines_ne_nil (List.mem_of_mem_filter hdata)

/-- A worker's parse failure on a non-empty line surfaces the rewritten
parse error `num + 1`. -/
theorem parseOne_fail {comma comment : Char} {l : CsvLine} (hne : l.data ≠ [])
    (hfail : ∀ sl, parseOne comma comment l ≠ Except.ok sl) :
    parseOne comma comment l = Except.error (Err.parseError (l.num + 1)) := by
  cases hh : l.data.head? with
  | none =>
    rw [List.head?_eq_none_iff] at hh
    exact absurd hh hne
  | some c =>
    rw [parseOne_eq_of_head hh]
    by_cases hc : c = '\n' ∨ c = comment
    · exfalso
      apply hfail (SliceLine.mk [] l.num)
      rw [parseOne_eq_of_head hh, if_pos hc]
    · rw [if_neg hc]
      cases hp : parseFields comma (stripLineEnd l.data) with
      | error e => rfl
      | ok fs =>
        exfalso
        apply hfail (SliceLine.mk fs l.num)
        rw [parseOne_eq_of_head hh, if_neg hc, hp]

theorem num_lt_of_mem {lines : List CsvLine}
    (hnums : lines.map CsvLine.num = List.range lines.length)
    {x : CsvLine} (hx : x ∈ lines) : x.num < lines.length := by
  have h1 : x.num ∈ lines.map CsvLine.num := List.mem_map_of_mem _ hx
  rw [hnums] at h1
  exact List.mem_range.mp h1

theorem mem_num_unique {lines : List CsvLine}
    (hnums : lines.map CsvLine.num = List.range lines.length)
    {x y : CsvLine} (hx : x ∈ lines) (hy : y ∈ lines) (hxy : x.num = y.num) : x = y := by
  obtain ⟨i, hi, rfl⟩ : ∃ (i : Nat) (h : i < lines.length), lines[i] = x := by
    simpa using List.mem_iff_getElem.mp hx
  obtain ⟨j, hj, rfl⟩ : ∃ (j : Nat) (h : j < lines.length), lines[j] = y := by
    simpa using List.mem_iff_getElem.mp hy
  have hni : (lines[i]).num = i := by
    have hi2 : i < (lines.map CsvLine.num).length := by simpa using hi
    have h2 : (lines.map CsvLine.num)[i] = i := by simp [hnums]
    simpa using h2
  have hnj : (lines[j]).num = j := by
    have hj2 : j < (lines.map CsvLine.num).length := by simpa using hj
    have h2 : (lines.map CsvLine.num)[j] = j := by simp [hnums]
    simpa using h2
  have hij : i = j := by
    rw [← hni, ← hnj, hxy]
  subst hij
  rfl

theorem mapM_ok_of_forall {α β ε : Type} {f : α → Except ε β} :
    ∀ {l : List α}, (∀ x ∈ l, ∃ y, f x = Except.ok y) → ∃ r, l.mapM f = Except.ok r := by
  intro l
  induction l with
  | nil =>
    intro _
    exact ⟨[], rfl⟩
  | cons a rest ih =>
    intro h
    obtain ⟨y, hy⟩ := h a (List.mem_cons_self _ _)
    obtain ⟨r, hr⟩ := ih (fun x hx => h x (List.mem_cons_of_mem _ hx))
    exact ⟨y :: r, mapM_cons_ok hy hr⟩

theorem mapM_append_error {α β ε : Type} {f : α → Except ε β} {e : ε} :
    ∀ (pre : List α) (x : α) (post : List α) (r : List β),
      pre.mapM f = Except.ok r → f x = Except.error e →
      (pre ++ x :: post).mapM f = Except.error e := by
  intro pre
  induction pre with
  | nil =>
    intro x post r _ hx
    rw [List.nil_append, List.mapM_cons, hx]
    rfl
  | cons a rest ih =>
    intro x post r hpre hx
    rw [List.mapM_cons] at hpre
    cases ha : f a with
    | error e' =>
      rw [ha] at hpre
      simp [Bind.bind, Except.bind] at hpre
    | ok b =>
      rw [ha] at hpre
      cases hrest : rest.mapM f with
      | error e' =>
        rw [hrest] at hpre
        simp [Bind.bind, Except.bind] at hpre
      | ok bs =>
        rw [List.cons_append, List.mapM_cons, ha, ih x post bs hrest hx]
        rfl

theorem countP_one_split {α : Type} (P : α → Bool) :
    ∀ {b : List α}, b.countP P = 1 →
      ∃ pre x post, b = pre ++ x :: post ∧ P x = true ∧
        pre.countP P = 0 ∧ post.countP P = 0 := by
  intro b
  induction b with
  | nil =>
    intro h
    simp [List.countP_nil] at h
  | cons a rest ih =>
    intro h
    by_cases ha : P a
    · rw [List.countP_cons_of_pos _ _ ha] at h
      have hrest : rest.countP P = 0 := by omega
      exact ⟨[], a, rest, rfl, ha, rfl, hrest⟩
    · rw [List.countP_cons_of_neg _ _ (by simpa using ha)] at h
      obtain ⟨pre, x, post, h1, h2, h3, h4⟩ := ih h
      refine ⟨a :: pre, x, post, by rw [h1]; rfl, h2, ?_, h4⟩
      rw [List.countP_cons_of_neg _ _ (by simpa using ha), h3]

theorem sum_countP_flatten {α : Type} (P : α → Bool) :
    ∀ (Bs : List (List α)), (Bs.map (List.countP P)).sum = Bs.flatten.countP P := by
  intro Bs
  induction Bs with
  | nil => rfl
  | cons b rest ih =>
    rw [List.map_cons, List.sum_cons, List.flatten_cons, List.countP_append, ih]

theorem batchResult_none {comma comment : Char} {b : List CsvLine}
    (h : ∀ x ∈ b, ∃ sl, parseOne comma comment x = Except.ok sl) :
    (match parseBatch comma comment b with
      | Except.ok _ => (none : Option Err)
      | Except.error e => some e) = none := by
  obtain ⟨r, hr⟩ := mapM_ok_of_forall h
  rw [show parseBatch comma comment b = b.mapM (parseOne comma comment) from rfl, hr]

theorem batch_ok_of_countP_zero {comma comment : Char} {L : Nat} {lines : List CsvLine}
    (hok : ∀ l ∈ lines, l.num ≠ L - 1 → ∃ sl, parseOne comma comment l = Except.ok sl)
    {b : List CsvLine} (hmemb : ∀ l ∈ b, l ∈ lines)
    (hcb : b.countP (fun l => l.num == L - 1) = 0) :
    (match parseBatch comma comment b with
      | Except.ok _ => (none : Option Err)
      | Except.error e => some e) = none := by
  apply batchResult_none
  intro x hx
  apply hok x (hmemb x hx)
  intro hxeq
  have h0 : 0 < b.countP (fun l => l.num == L - 1) :=
    List.countP_pos.mpr ⟨x, hx, by simp [hxeq]⟩
  omega

/-- The per-batch error results of a batch list holding the sole failing
line exactly once: one batch surfaces the rewritten error, the others
none. -/
theorem batchErrors_eq_single {comma comment : Char} {L : Nat}
    (lines : List CsvLine)
    (hnums : lines.map CsvLine.num = List.range lines.length)
    (l₀ : CsvLine) (hl₀ : l₀ ∈ lines) (hnum : l₀.num = L - 1) (hL : 1 ≤ L)
    (hfail : ∀ sl, parseOne comma comment l₀ ≠ Except.ok sl)
    (hne : l₀.data ≠ [])
    (hok : ∀ l ∈ lines, l.num ≠ L - 1 → ∃ sl, parseOne comma comment l = Except.ok sl) :
    ∀ (Bs : List (List CsvLine)),
      (∀ l ∈ Bs.flatten, l ∈ lines) →
      (Bs.map (List.countP (fun l => l.num == L - 1))).sum = 1 →
      Bs.filterMap (fun b => match parseBatch comma comment b with
        | Except.ok _ => none
        | Except.error e => some e) = [Err.parseError L] := by
  intro Bs
  induction Bs with
  | nil =>
    intro _ hsum
    simp at hsum
  | cons b rest ih =>
    intro hmem hsum
    rw [List.map_cons, List.sum_cons] at hsum
    have hmemb : ∀ l ∈ b, l ∈ lines := fun l hl =>
      hmem l (by rw [List.flatten_cons]; exact List.mem_append_left _ hl)
    have hmemrest : ∀ l ∈ rest.flatten, l ∈ lines := fun l hl =>
      hmem l (by rw [List.flatten_cons]; exact List.mem_append_right _ hl)
    rw [List.filterMap_cons]
    by_cases hcb : b.countP (fun l => l.num == L - 1) = 0
    · rw [batch_ok_of_countP_zero hok hmemb hcb]
      exact ih hmemrest (by omega)
    · have hcb1 : b.countP (fun l => l.num == L - 1) = 1 := by
        have h0 : 0 < b.countP (fun l => l.num == L - 1) := Nat.pos_of_ne_zero hcb
        omega
      have hrest0 : (rest.map (List.countP (fun l => l.num == L - 1))).sum = 0 := by omega
      obtain ⟨pre, x, post, hb, hPx, hpre0, hpost0⟩ := countP_one_split _ hcb1
      have hxnum : x.num = L - 1 := by simpa using hPx
      have hxlines : x ∈ lines := hmemb x (by
        rw [hb]
        exact List.mem_append_right _ (List.mem_cons_self _ _))
      have hxl₀ : x = l₀ := mem_num_unique hnums hxlines hl₀ (by rw [hxnum, hnum])
      have hpreok : ∀ y ∈ pre, ∃ sl, parseOne comma comment y = Except.ok sl := by
        intro y hy
        apply hok y (hmemb y (by rw [hb]; exact List.mem_append_left _ hy))
        intro hyeq
        have h0 : 0 < pre.countP (fun l => l.num == L - 1) :=
          List.countP_pos.mpr ⟨y, hy, by simp [hyeq]⟩
        omega
      obtain ⟨r, hr⟩ := mapM_ok_of_forall hpreok
      have hxfail : parseOne comma comment x = Except.error (Err.parseError L) := by
        rw [hxl₀]
        have h1 := parseOne_fail hne hfail
        rw [hnum] at h1
        have hL1 : L - 1 + 1 = L := by omega
        rwa [hL1] at h1
      have hberr : parseBatch comma comment b = Except.error (Err.parseError L) := by
        rw [hb]
        exact mapM_append_error pre x post r hr hxfail
      rw [hberr]
      have hrestnil : rest.filterMap (fun b => match parseBatch comma comment b with
          | Except.ok _ => none
          | Except.error e => some e) = [] := by
        apply List.filterMap_eq_nil.mpr
        intro b' hb'
        have hmemb' : ∀ l ∈ b', l ∈ lines := fun l hl =>
          hmemrest l (List.mem_flatten.mpr ⟨b', hb', hl⟩)
        have hcb' : b'.countP (fun l => l.num == L - 1) = 0 := by
          have hin : b'.countP (fun l => l.num == L - 1) ∈
              rest.map (List.countP (fun l => l.num == L - 1)) :=
            List.mem_map_of_mem _ hb'
          have hall := (List.sum_eq_zero_iff).mp hrest0
          exact hall _ hin
        exact batch_ok_of_countP_zero hok hmemb' hcb'
      rw [hrestnil]

theorem foldl_waitForDone_some (x : Err) :
    ∀ (ws : List (Option Err)), ws.foldl (fun acc w =>
      match acc, w with
      | none, some e => if e = Err.eof then none else some e
      | acc, _ => acc) (some x) = some x := by
  intro ws
  induction ws with
  | nil => rfl
  | cons w rest ih =>
    cases w <;> exact ih

theorem waitForDone_single (L : Nat) :
    ∀ (ws : List (Option Err)), ws.filterMap id = [Err.parseError L] →
      waitForDoneModel none ws = Err.parseError L := by
  intro ws
  induction ws with
  | nil =>
    intro h
    simp at h
  | cons w rest ih =>
    intro h
    cases w with
    | none =>
      have h2 : rest.filterMap id = [Err.parseError L] := by
        rwa [List.filterMap_cons_none rfl] at h
      exact ih h2
    | some e =>
      have h2 : e :: rest.filterMap id = [Err.parseError L] := by
        simpa using h
      have he : e = Err.parseError L := (List.cons_eq_cons.mp h2).1
      have hrest : rest.filterMap id = [] := (List.cons_eq_cons.mp h2).2
      subst he
      show (List.foldl (fun acc w =>
          match acc, w with
          | none, some e => if e = Err.eof then none else some e
          | acc, _ => acc) (some (Err.parseError L)) rest).getD Err.eof =
        Err.parseError L
      rw [foldl_waitForDone_some]
      rfl

/-- C4 (amended): whenever the sequential parser fails on a raw line
carrying splitter-assigned line number `k`, the surfaced parse error has
its line attribute rewritten to `k + 1` (fourth conjunct); hence on an
input with no `'\r'`-prefixed physical lines (so splitter numbering
coincides with the physical 1-based numbering, third conjunct) whose
*only* grammar violation is on line `L`, every worker status the pipeline
can produce carries `parseError L`, and `waitForDone` surfaces
`parseError L` whatever the workers' completion order. -/
theorem c4_parse_error_line (comma comment : Char) (c : Nat) (input : List Char)
    (L : Nat)
    (hnocr : ∀ l ∈ splitLines input, l.head? ≠ some '\r')
    (l₀ : CsvLine) (hl₀ : l₀ ∈ numberedLines input) (hnum : l₀.num = L - 1)
    (hL : 1 ≤ L)
    (hfail : ∀ sl, parseOne comma comment l₀ ≠ Except.ok sl)
    (hok : ∀ l ∈ numberedLines input, l.num ≠ L - 1 →
      ∃ sl, parseOne comma comment l = Except.ok sl) :
    pipelineErrors comma comment c input = [Err.parseError L] ∧
    (∀ ws : List (Option Err),
      ws.filterMap id = pipelineErrors comma comment c input →
      waitForDoneModel none ws = Err.parseError L) ∧
    (numberedLines input).map CsvLine.data = splitLines input ∧
    (∀ (pre post : List CsvLine) (l : CsvLine) (r : List SliceLine),
      pre.mapM (parseOne comma comment) = Except.ok r →
      l.data ≠ [] → (∀ sl, parseOne comma comment l ≠ Except.ok sl) →
      parseBatch comma comment (pre ++ l :: post) =
        Except.error (Err.parseError (l.num + 1))) := by
  have hnums : (numberedLines input).map CsvLine.num =
      List.range (numberedLines input).length := numberedLines_map_num input
  have hne : l₀.data ≠ [] := numberedLines_data_ne_nil hl₀
  have hmain : pipelineErrors comma comment c input = [Err.parseError L] := by
    unfold pipelineErrors batchResultsOf
    rw [List.filterMap_map]
    have hflat : (splitterBatches c (numberedLines input)).flatten = numberedLines input :=
      splitterBatchesF_flatten c _ _
    have hcount : ((splitterBatches c (numberedLines input)).map
        (List.countP (fun l => l.num == L - 1))).sum = 1 := by
      rw [sum_countP_flatten, hflat]
      have h1 : (numberedLines input).countP (fun l => l.num == L - 1) =
          ((numberedLines input).map CsvLine.num).count (L - 1) := by
        rw [List.count, List.countP_map]
        rfl
      rw [h1, hnums]
      apply List.count_eq_one_of_mem (List.nodup_range _)
      apply List.mem_range.mpr
      have := num_lt_of_mem hnums hl₀
      omega
    exact batchErrors_eq_single (numberedLines input) hnums l₀ hl₀ hnum hL hfail hne hok
      (splitterBatches c (numberedLines input))
      (fun l hl => by rwa [hflat] at hl) hcount
  refine ⟨hmain, ?_, ?_, ?_⟩
  · intro ws hws
    rw [hmain] at hws
    exact waitForDone_single L ws hws
  · have hkept : keptLines input = splitLines input := by
      apply List.filter_eq_self.mpr
      intro l hl
      simp [hnocr l hl]
    unfold numberedLines
    rw [List.map_map]
    have hcomp : (CsvLine.data ∘ fun p : Nat × List Char => CsvLine.mk p.2 p.1) =
        Prod.snd := rfl
    rw [hcomp, List.enum_map_snd, hkept]
  · intro pre post l r hr hlne hlfail
    show (pre ++ l :: post).mapM (parseOne comma comment) = _
    exact mapM_append_error pre l post r hr (parseOne_fail hlne hlfail)

/-- Witness for C4 (amended): `"ok\nbad\"x\n"` has its only grammar
violation (a bare quote) on 1-based line 2, and the pipeline's only
surfaced error is `parseError 2`. -/
theorem c4_witness :
    pipelineErrors ',' (Char.ofNat 0) 3 ("ok\nbad\"x\n".data) = [Err.parseError 2] :=
  (c4_parse_error_line ',' (Char.ofNat 0) 3 ("ok\nbad\"x\n".data) 2
    (by decide)
    ⟨"bad\"x\n".data, 1⟩ (by decide) (by decide) (by decide)
    (by
      intro sl h
      rw [show parseOne ',' (Char.ofNat 0) (⟨"bad\"x\n".data, 1⟩ : CsvLine) =
        Except.error (Err.parseError 2) from by decide] at h
      exact absurd h (by simp))
    (by
      intro l hl hlnum
      have hl2 : l = (⟨"ok\n".data, 0⟩ : CsvLine) ∨ l = ⟨"bad\"x\n".data, 1⟩ := by
        have heq : numberedLines ("ok\nbad\"x\n".data) =
            [⟨"ok\n".data, 0⟩, ⟨"bad\"x\n".data, 1⟩] := by decide
        rw [heq] at hl
        exact List.mem_pair.mp hl
      rcases hl2 with rfl | rfl
      · exact ⟨⟨["ok"], 0⟩, by decide⟩
      · exact absurd rfl hlnum)).1

end Multicorecsv
